import Mathlib

/-!
Formal model of the Rust-Particle-System GPU fluid simulation host code.

The development embeds, as executable Lean definitions, the host-side
scheduling and buffer-layout logic of the particle pipeline
(particle_buffers.rs, particle_compute.rs, main.rs, particle.rs, util.rs)
together with spec-modelled fragments of the WGSL compute shader, which is
not part of the repository sources.  Theorems about these definitions
settle the behavioural claims about the pipeline: the bitonic sorting
network, the dispatch schedule, buffer sizes and alignment, and the
stability safeguards.
-/

namespace ParticleSim

/-- Threads per compute workgroup (particle_compute.rs, WORKGROUP_SIZE = 64). -/
def WORKGROUP_SIZE : ℕ := 64

/-- Minimum uniform-buffer alignment in bytes (UNIFORM_ALIGNMENT = 256 in both
particle_buffers.rs and particle_compute.rs). -/
def UNIFORM_ALIGNMENT : ℕ := 256

/-- Least exponent k such that n <= 2 ^ k.  Searches k = 0, 1, ..., n; the
search always succeeds because n <= 2 ^ n. -/
def ceilLog2 (n : ℕ) : ℕ := ((List.range (n + 1)).find? (fun k => n ≤ 2 ^ k)).getD 0

/-- Model of u32::next_power_of_two: the smallest power of two greater than or
equal to the argument (returns 1 for 0, as the Rust function does).  Total on
naturals; the u32 function is only faithful below 2 ^ 31, which the theorems
assume where relevant. -/
def nextPow2 (n : ℕ) : ℕ := 2 ^ ceilLog2 n

/-- Model of u32::ilog2: the floor of the base-2 logarithm. -/
def ilog2 (n : ℕ) : ℕ := Nat.log 2 n

/-- num_stages = u32::ilog2(next_pow_2) (particle_buffers.rs line 100). -/
def numStages (n : ℕ) : ℕ := ilog2 (nextPow2 n)

/-- The total_iterations accumulation loop of particle_buffers.rs lines
101-104: for stage in 0..k, total += stage + 1. -/
def iterationsFor (k : ℕ) : ℕ := (List.range k).foldl (fun acc stage => acc + (stage + 1)) 0

/-- total_iterations for a given particle count. -/
def totalIterations (n : ℕ) : ℕ := iterationsFor (numStages n)

/-- The SortingParams record uploaded per sort iteration
(particle_buffers.rs lines 27-35): four u32 fields. -/
structure SortingParams where
  n : ℕ
  group_width : ℕ
  group_height : ℕ
  step_index : ℕ
deriving DecidableEq

/-- Byte size of SortingParams: four u32 fields of 4 bytes each. -/
def sizeOfSortingParams : ℕ := 16

/-- aligned_size = ((size_of::<SortingParams>() + 255) / 256) * 256
(particle_buffers.rs lines 106-107). -/
def alignedSize : ℕ :=
  ((sizeOfSortingParams + UNIFORM_ALIGNMENT - 1) / UNIFORM_ALIGNMENT) * UNIFORM_ALIGNMENT

/-- Byte size of the sorting params uniform buffer
(particle_buffers.rs line 111): total_iterations * aligned_size. -/
def sortingParamsBufferSize (n : ℕ) : ℕ := totalIterations n * alignedSize

/-- The record built for stage sigma, step t of the sort schedule
(particle_buffers.rs lines 120-129): group_width = 1 << (stage - step),
group_height = 2 * group_width - 1, n = next_pow_2. -/
def sortRecord (n sigma t : ℕ) : SortingParams :=
  { n := nextPow2 n
    group_width := 2 ^ (sigma - t)
    group_height := 2 * 2 ^ (sigma - t) - 1
    step_index := t }

/-- The sorting parameter records in upload order, produced by the nested
stage/step loop of particle_buffers.rs lines 120-138. -/
def sortingRecords (n : ℕ) : List SortingParams :=
  (List.range (numStages n)).flatMap (fun stage =>
    (List.range (stage + 1)).map (fun step => sortRecord n stage step))

/-- Byte size of the spatial lookup buffer (particle_buffers.rs line 89):
size_of::<u32>() * 2 * particle_count.next_power_of_two(). -/
def spatialLookupBufferSize (n : ℕ) : ℕ := 4 * 2 * nextPow2 n

/-- A spatial lookup entry: (cellKey, particleIndex), both u32. -/
abbrev Entry := ℕ × ℕ

/-- The padding sentinel, the maximum representable u32 value. -/
def SENTINEL : ℕ := 2 ^ 32 - 1

/-- Modelled from the spec: the bin_particles_in_grid kernel of
compute_shader.wgsl is not in the repository sources.  Per spec section 4.1
and section 3, the binner writes one SpatialLookupEntry per particle
(cellKey from the grid hash, particleIndex = the particle id) and fills every
index at or beyond particle_count with a padding entry carrying the sentinel
key.  The cell hash itself is abstracted as an arbitrary u32-valued
function. -/
def binParticlesInGrid (n : ℕ) (cellKeyOf : ℕ → ℕ) : ℕ → Entry :=
  fun i => if i < n then (cellKeyOf i, i) else (SENTINEL, i)

/-- One logical compute dispatch recorded by the orchestrator model, carrying
the entry point identity and dispatch arguments. -/
inductive DispatchCall where
  | binParticlesCall (workgroups : ℕ)
  | sortParticlesCall (dynamicOffset workgroups : ℕ)
  | lookupOffsetsCall (workgroups : ℕ)
  | preSimStepCall (workgroups : ℕ)
  | simStepCall (workgroups : ℕ)
deriving DecidableEq

/-- Workgroup count of every per-particle dispatch
(particle_compute.rs lines 111, 159, 173, 187):
(particle_count + WORKGROUP_SIZE - 1) / WORKGROUP_SIZE. -/
def perParticleWorkgroups (n : ℕ) : ℕ := (n + WORKGROUP_SIZE - 1) / WORKGROUP_SIZE

/-- num_pairs = next_pow_2 / 2 (particle_compute.rs line 123). -/
def numPairs (n : ℕ) : ℕ := nextPow2 n / 2

/-- Workgroup count of each sort dispatch (particle_compute.rs line 140). -/
def sortWorkgroups (n : ℕ) : ℕ := (numPairs n + WORKGROUP_SIZE - 1) / WORKGROUP_SIZE

/-- Readiness of each compute pipeline in the pipeline cache; each dispatch in
ParticleComputeNode::run is guarded by a pipeline-cache lookup. -/
structure PipelineAvail where
  grid : Bool
  sort : Bool
  offsets : Bool
  preSim : Bool
  sim : Bool

/-- The sort dispatches issued by the nested stage/step loop of
ParticleComputeNode::run (particle_compute.rs lines 120-145), with the running
iteration counter determining each dynamic offset (iteration * 256). -/
def sortDispatchList (n : ℕ) : List DispatchCall :=
  ((List.range (numStages n)).foldl
    (fun (acc : List DispatchCall × ℕ) stage =>
      (List.range (stage + 1)).foldl
        (fun acc2 _step =>
          (acc2.1 ++ [DispatchCall.sortParticlesCall (acc2.2 * UNIFORM_ALIGNMENT) (sortWorkgroups n)],
           acc2.2 + 1))
        acc)
    ([], 0)).1

/-- The full dispatch sequence issued by one ParticleComputeNode::run
invocation (particle_compute.rs lines 89-193), in source order: grid binning,
the sort loop, lookup offsets, pre-simulation, simulation.  Each pass is
emitted only when its pipeline is ready in the cache. -/
def computeNodeDispatches (avail : PipelineAvail) (n : ℕ) : List DispatchCall :=
  (if avail.grid then [DispatchCall.binParticlesCall (perParticleWorkgroups n)] else []) ++
  (if avail.sort then sortDispatchList n else []) ++
  (if avail.offsets then [DispatchCall.lookupOffsetsCall (perParticleWorkgroups n)] else []) ++
  (if avail.preSim then [DispatchCall.preSimStepCall (perParticleWorkgroups n)] else []) ++
  (if avail.sim then [DispatchCall.simStepCall (perParticleWorkgroups n)] else [])

/-- Count of sort dispatches in a dispatch sequence. -/
def countSortDispatches (l : List DispatchCall) : ℕ :=
  l.countP (fun d => match d with
    | DispatchCall.sortParticlesCall _ _ => true
    | _ => false)

/-- The GPU buffer writes performed by one invocation of
prepare_particle_buffers that concern the sorting params buffer and the
config buffer. -/
structure PrepareEffects where
  sortingParamsWrites : List (List SortingParams)
  configWrites : ℕ
deriving DecidableEq

/-- Model of one invocation of prepare_particle_buffers
(particle_buffers.rs lines 37-221), projected onto its queue writes.  The
Local ran flag selects the branch and is set to true either way.  On the
first invocation (ran = false), the whole buffer-creation block, including
the single write of the sorting-params table (line 141), runs only inside
the `if let Ok((entity, particle_system)) = particle_system_query.single()`
guard (line 70): when the ParticleSystem entity is absent nothing is
uploaded, although the flag is still consumed.  On every later invocation
only the config buffer is rewritten (lines 206-220), and only inside the
`if let Ok(..) = pipeline_buffers_query.single()` guard (line 213): when the
GPUPipelineBuffers component is absent no write happens at all.  The two
guards are modelled by the particleSystemPresent and buffersPresent flags. -/
def preparePass (ran : Bool) (particleSystemPresent : Bool) (buffersPresent : Bool)
    (n : ℕ) : PrepareEffects × Bool :=
  if ran then
    ({ sortingParamsWrites := [],
       configWrites := if buffersPresent then 1 else 0 }, true)
  else
    ({ sortingParamsWrites := if particleSystemPresent then [sortingRecords n] else [],
       configWrites := 0 }, true)

/-- Field list of the ParticleConfig struct (main.rs lines 42-64), in
declaration order, with byte sizes: u32 and f32 are 4 bytes, [f32; 2] is 8,
[f32; 4] is 16, [[f32; 4]; 4] is 64. -/
def particleConfigFields : List (String × ℕ) :=
  [("particle_count", 4), ("particle_size", 4), ("delta_time", 4), ("gravity", 4),
   ("inflow_vel", 4), ("vertical_jitter", 4), ("air_density", 4), ("air_viscosity", 4),
   ("pressure_gradient", 8), ("padding", 8), ("screen_bounds", 16), ("view_proj", 64),
   ("max_energy", 4), ("smoothing_radius", 4), ("temp3", 4), ("temp4", 4)]

/-- The Configuration field names enumerated by the spec (section 3):
scalars, screen bounds, the view-projection matrix and the three kernel
normalization constants. -/
def specConfigFieldNames : List String :=
  ["particle_count", "smoothing_radius", "target_density", "pressure_multiplier",
   "near_density_multiplier", "viscosity_strength", "damping_factor", "gravity",
   "max_energy", "fixed_delta_time", "frame_count", "screen_bounds", "view_proj",
   "density_kernel_norm", "near_density_kernel_norm", "viscosity_kernel_norm"]

/-- Total byte size of the ParticleConfig struct. -/
def particleConfigSize : ℕ := (particleConfigFields.map Prod.snd).sum

/-- Field list of the Particle struct actually stored in the particle buffer
(particle.rs lines 20-25), with f32 lane counts. -/
def particleFields : List (String × ℕ) :=
  [("position", 2), ("velocity", 2), ("color", 4)]

/-- The Particle field list enumerated by the spec (section 3). -/
def specParticleFields : List (String × ℕ) :=
  [("position", 2), ("velocity", 2), ("predicted_position", 2),
   ("density", 1), ("near_density", 1), ("color", 4)]

/-- Model of setup_particles (main.rs lines 130-202), projected onto the
number of particle records spawned.  The Local ran flag makes it a one-shot
system; if the screen bounds are unavailable the function returns early after
setting the flag and spawns nothing; otherwise it pushes exactly
particle_count records and spawns the ParticleSystem once. -/
def setupParticlesCount (ran : Bool) (boundsAvailable : Bool) (n : ℕ) : Option ℕ :=
  if ran then none
  else if boundsAvailable then some n
  else none

/-- Kinetic energy of a 2-d velocity, 0.5 * |v|^2, over the rationals. -/
def kineticEnergy (v : ℚ × ℚ) : ℚ := (v.1 * v.1 + v.2 * v.2) / 2

/-- Modelled from the spec: the energy clamp of the simulation_step kernel
(compute_shader.wgsl, not in the repository sources).  Per spec section 4.5,
after integration the velocity is left unchanged when its kinetic energy is
within max_energy, and otherwise is rescaled by a nonnegative factor so that
the kinetic energy equals max_energy exactly.  Stated as a relation between
the integrated velocity and the clamped velocity. -/
def EnergyClamped (maxE : ℚ) (v vNew : ℚ × ℚ) : Prop :=
  (kineticEnergy v ≤ maxE ∧ vNew = v) ∨
  (maxE < kineticEnergy v ∧ (∃ c : ℚ, 0 ≤ c ∧ vNew = (c * v.1, c * v.2)) ∧
    kineticEnergy vNew = maxE)

/-- Modelled from the spec: the sort_particles kernel of compute_shader.wgsl
is not in the repository sources.  Per spec section 4.2 each dispatch is a
compare-and-swap step parameterized by the (n, groupWidth, groupHeight,
stepIndex) record: thread i computes h = i mod groupWidth,
low = h + (groupHeight + 1) * (i / groupWidth), and a partner at distance
groupHeight - 2 * h for the first step of a stage and (groupHeight + 1) / 2
for later steps, skipping pairs whose high index reaches n.  One thread per
candidate pair (n / 2 pairs); guard threads beyond that are idle. -/
def comparatorList (p : SortingParams) : List (ℕ × ℕ) :=
  (List.range (p.n / 2)).filterMap (fun i =>
    let h := i % p.group_width
    let low := h + (p.group_height + 1) * (i / p.group_width)
    let dist := if p.step_index = 0 then p.group_height - 2 * h else (p.group_height + 1) / 2
    if low + dist < p.n then some (low, low + dist) else none)

/-- The comparator sequence of the whole per-frame sort schedule: every
uploaded record, in dispatch order, contributes its compare-and-swap step. -/
def fullNetwork (n : ℕ) : List (ℕ × ℕ) := (sortingRecords n).flatMap comparatorList

/-- One ascending compare-and-swap on a key state: position c.1 receives the
smaller key, position c.2 the larger. -/
def cswap (c : ℕ × ℕ) (s : ℕ → ℕ) : ℕ → ℕ := fun k =>
  if k = c.1 then min (s c.1) (s c.2)
  else if k = c.2 then max (s c.1) (s c.2)
  else s k

/-- Run a comparator network over a key state. -/
def runNet (net : List (ℕ × ℕ)) (s : ℕ → ℕ) : ℕ → ℕ :=
  net.foldl (fun t c => cswap c t) s

/-- One ascending compare-and-swap on an entry state: the two entries are
exchanged exactly when the cellKey at the low index strictly exceeds the
cellKey at the high index. -/
def cswapE (c : ℕ × ℕ) (s : ℕ → Entry) : ℕ → Entry := fun k =>
  if (s c.1).1 ≤ (s c.2).1 then s k
  else if k = c.1 then s c.2
  else if k = c.2 then s c.1
  else s k

/-- Run a comparator network over an entry state. -/
def runNetE (net : List (ℕ × ℕ)) (s : ℕ → Entry) : ℕ → Entry :=
  net.foldl (fun t c => cswapE c t) s

/-- The comparator pairs of a mirror step (step 0 of a stage): B blocks of
size 2G, thread i in block i / G compares slot h = i mod G with the mirrored
slot 2G - 1 - h of the same block. -/
def mirrorComps (G B : ℕ) : List (ℕ × ℕ) :=
  (List.range (B * G)).map (fun i =>
    (2 * G * (i / G) + i % G, 2 * G * (i / G) + (2 * G - 1 - i % G)))

/-- The comparator pairs of a half-cleaner step (steps >= 1 of a stage):
B blocks of size 2G, thread i compares slot h = i mod G of its block with the
slot at distance G. -/
def halfComps (G B : ℕ) : List (ℕ × ℕ) :=
  (List.range (B * G)).map (fun i =>
    (2 * G * (i / G) + i % G, 2 * G * (i / G) + i % G + G))

/-- The comparator list of step t of stage sigma for an array of 2 ^ K
elements, written directly in mirror / half-cleaner form; the bridge lemmas
below prove it equal to the comparator list computed by the shader model from
the uploaded (n, group_width, group_height, step_index) record. -/
def stageStepNetPow (K sigma t : ℕ) : List (ℕ × ℕ) :=
  if t = 0 then mirrorComps (2 ^ sigma) (2 ^ (K - sigma - 1))
  else halfComps (2 ^ (sigma - t)) (2 ^ (K - (sigma - t) - 1))

/-- All comparators of stage sigma, in step order. -/
def stageNetPow (K sigma : ℕ) : List (ℕ × ℕ) :=
  (List.range (sigma + 1)).flatMap (stageStepNetPow K sigma)

/-- The whole sorting network for 2 ^ K elements, in stage order. -/
def fullNetPow (K : ℕ) : List (ℕ × ℕ) :=
  (List.range K).flatMap (stageNetPow K)

/-- The view of a state from an offset. -/
def shiftF (v : ℕ → ℕ) (off : ℕ) : ℕ → ℕ := fun r => v (off + r)

/-- A 0-1 block whose ones form the run with a <= r < b. -/
def OnesRun (v : ℕ → ℕ) (len a b : ℕ) : Prop :=
  ∀ r < len, v r = if a ≤ r ∧ r < b then 1 else 0

/-- A 0-1 block whose zeros form the run with a <= r < b. -/
def ZerosRun (v : ℕ → ℕ) (len a b : ℕ) : Prop :=
  ∀ r < len, v r = if a ≤ r ∧ r < b then 0 else 1

/-- A 0-1 block is bitonic when either its ones or its zeros form one
contiguous run. -/
def Bitonic01 (v : ℕ → ℕ) (len : ℕ) : Prop :=
  (∃ a b, OnesRun v len a b) ∨ (∃ a b, ZerosRun v len a b)

/-- A sorted 0-1 block: z zeros followed by ones. -/
def IsStep (v : ℕ → ℕ) (len z : ℕ) : Prop :=
  ∀ r < len, v r = if r < z then 0 else 1

/-- All values of a block are 0. -/
def AllZero (v : ℕ → ℕ) (len : ℕ) : Prop := ∀ r < len, v r = 0

/-- All values of a block are 1. -/
def AllOne (v : ℕ → ℕ) (len : ℕ) : Prop := ∀ r < len, v r = 1

/-- Separation of two 0-1 blocks: every value of the first is at most every
value of the second (for 0-1 data: the first is all zero or the second all
one). -/
def Sep01 (v w : ℕ → ℕ) (lv lw : ℕ) : Prop := AllZero v lv ∨ AllOne w lw

/-- Two comparators touch disjoint positions. -/
def EndpDisj (c d : ℕ × ℕ) : Prop :=
  c.1 ≠ d.1 ∧ c.1 ≠ d.2 ∧ c.2 ≠ d.1 ∧ c.2 ≠ d.2

/-- Invariant after the completed stages below sigma: every aligned block of
size 2 ^ sigma is a sorted 0-1 block. -/
def OuterInv (st : ℕ → ℕ) (k sigma : ℕ) : Prop :=
  ∀ b < 2 ^ (k - sigma), ∃ z ≤ 2 ^ sigma, IsStep (shiftF st (b * 2 ^ sigma)) (2 ^ sigma) z

/-- Invariant inside stage sigma after its steps 0..t: every superblock of
size 2 ^ (sigma + 1) is tiled by chunks of size 2 ^ (sigma - t), each chunk
is bitonic, and consecutive chunks of one superblock are separated. -/
def StageInv (st : ℕ → ℕ) (k sigma t : ℕ) : Prop :=
  (∀ b < 2 ^ (k - sigma - 1), ∀ c < 2 ^ (t + 1),
    Bitonic01 (shiftF st (b * 2 ^ (sigma + 1) + c * 2 ^ (sigma - t))) (2 ^ (sigma - t))) ∧
  (∀ b < 2 ^ (k - sigma - 1), ∀ c, c + 1 < 2 ^ (t + 1) →
    Sep01 (shiftF st (b * 2 ^ (sigma + 1) + c * 2 ^ (sigma - t)))
          (shiftF st (b * 2 ^ (sigma + 1) + (c + 1) * 2 ^ (sigma - t)))
          (2 ^ (sigma - t)) (2 ^ (sigma - t)))

/-! Basic facts about the power-of-two padding and the iteration count. -/

theorem ceilLog2_spec (n : ℕ) : n ≤ 2 ^ ceilLog2 n := by
  unfold ceilLog2
  cases h : (List.range (n + 1)).find? (fun k => n ≤ 2 ^ k) with
  | none =>
    exfalso
    rw [List.find?_eq_none] at h
    exact h n (by simp [List.mem_range]) (by simpa using Nat.le_of_lt (Nat.lt_two_pow n))
  | some k =>
    have := List.find?_some h
    simpa using this

theorem le_nextPow2 (n : ℕ) : n ≤ nextPow2 n := ceilLog2_spec n

theorem numStages_eq (n : ℕ) : numStages n = ceilLog2 n := by
  unfold numStages ilog2 nextPow2
  exact Nat.log_pow (by norm_num) _

theorem iterationsFor_succ (k : ℕ) : iterationsFor (k + 1) = iterationsFor k + (k + 1) := by
  unfold iterationsFor
  rw [List.range_succ, List.foldl_append]
  simp

theorem two_mul_iterationsFor (k : ℕ) : 2 * iterationsFor k = k * (k + 1) := by
  induction k with
  | zero => rfl
  | succ k ih => rw [iterationsFor_succ]; ring_nf; ring_nf at ih; omega

theorem iterationsFor_eq_triangular (k : ℕ) : iterationsFor k = k * (k + 1) / 2 := by
  have := two_mul_iterationsFor k
  omega

theorem iterationsFor_eq_sum (k : ℕ) :
    iterationsFor k = ((List.range k).map (· + 1)).sum := by
  induction k with
  | zero => rfl
  | succ k ih => rw [iterationsFor_succ, List.range_succ, List.map_append, List.sum_append, ih]; simp

theorem length_sortingRecords (n : ℕ) : (sortingRecords n).length = totalIterations n := by
  unfold sortingRecords totalIterations
  rw [List.length_bind, iterationsFor_eq_sum]
  congr 1
  simp

/-! The sort dispatch loop of ParticleComputeNode::run unrolled to a flat list,
with the running iteration counter made explicit. -/

theorem foldl_emit {β : Type} (g : ℕ → β) (l : List ℕ) (xs : List β) (i : ℕ) :
    l.foldl (fun (a : List β × ℕ) _ => (a.1 ++ [g a.2], a.2 + 1)) (xs, i)
      = (xs ++ (List.range' i l.length).map g, i + l.length) := by
  induction l generalizing xs i with
  | nil => simp
  | cons x l ih =>
    rw [List.foldl_cons]
    show l.foldl _ (xs ++ [g i], i + 1) = _
    rw [ih]
    simp only [List.length_cons, Prod.mk.injEq]
    constructor
    · rw [List.append_assoc]
      congr 1
    · omega

theorem foldl_emit_nested {β : Type} (g : ℕ → β) (st : List ℕ) (xs : List β) (i : ℕ) :
    st.foldl (fun (a : List β × ℕ) stage =>
        (List.range (stage + 1)).foldl
          (fun (a2 : List β × ℕ) _ => (a2.1 ++ [g a2.2], a2.2 + 1)) a)
      (xs, i)
      = (xs ++ (List.range' i ((st.map (· + 1)).sum)).map g, i + (st.map (· + 1)).sum) := by
  induction st generalizing xs i with
  | nil => simp
  | cons s st ih =>
    simp only [List.foldl_cons]
    rw [foldl_emit g (List.range (s + 1)) xs i]
    rw [ih]
    have hr : List.range' i (s + 1) ++ List.range' (i + (s + 1)) ((st.map (· + 1)).sum)
        = List.range' i ((st.map (· + 1)).sum + (s + 1)) := by
      have h2 := List.range'_append i (s + 1) ((st.map (· + 1)).sum) 1
      simpa using h2
    have hsum : (st.map (· + 1)).sum + (s + 1) = ((s :: st).map (· + 1)).sum := by
      simp [add_comm]
    simp only [List.length_range]
    rw [List.append_assoc, ← List.map_append, hr, hsum]
    simp only [Prod.mk.injEq, List.map_cons, List.sum_cons]
    exact ⟨trivial, by omega⟩

theorem sortDispatchList_eq (n : ℕ) :
    sortDispatchList n = (List.range (totalIterations n)).map
      (fun i => DispatchCall.sortParticlesCall (i * UNIFORM_ALIGNMENT) (sortWorkgroups n)) := by
  unfold sortDispatchList
  rw [foldl_emit_nested (fun m => DispatchCall.sortParticlesCall (m * UNIFORM_ALIGNMENT) (sortWorkgroups n))]
  simp only [List.nil_append]
  rw [← iterationsFor_eq_sum]
  rw [← List.range_eq_range']
  rfl

theorem length_sortDispatchList (n : ℕ) :
    (sortDispatchList n).length = totalIterations n := by
  rw [sortDispatchList_eq]; simp

theorem computeNodeDispatches_all (n : ℕ) :
    computeNodeDispatches ⟨true, true, true, true, true⟩ n =
      [DispatchCall.binParticlesCall (perParticleWorkgroups n)] ++
      (List.range (totalIterations n)).map
        (fun i => DispatchCall.sortParticlesCall (i * UNIFORM_ALIGNMENT) (sortWorkgroups n)) ++
      [DispatchCall.lookupOffsetsCall (perParticleWorkgroups n),
       DispatchCall.preSimStepCall (perParticleWorkgroups n),
       DispatchCall.simStepCall (perParticleWorkgroups n)] := by
  unfold computeNodeDispatches
  rw [sortDispatchList_eq]
  simp

/-! Claim C2: sort dispatch count, uploaded record count, and the triangular
number of stages coincide. -/

/-- Claim C2: for every particle_count n with 1 <= n (and n within the u32
domain of next_power_of_two), the number of sort dispatches issued per frame
equals the number of SortingParams records uploaded, and both equal the
triangular number log2(P) * (log2(P) + 1) / 2 for P = next_pow2(n). -/
theorem sort_dispatch_count_matches_records (n : ℕ) (h1 : 1 ≤ n) (h2 : n ≤ 2 ^ 31) :
    countSortDispatches (computeNodeDispatches ⟨true, true, true, true, true⟩ n)
        = (sortingRecords n).length ∧
    (sortingRecords n).length = numStages n * (numStages n + 1) / 2 := by
  constructor
  · rw [computeNodeDispatches_all, length_sortingRecords]
    unfold countSortDispatches
    simp only [List.countP_append, List.countP_map, List.countP_cons, List.countP_nil]
    have hall : List.countP
        ((fun d => match d with
          | DispatchCall.sortParticlesCall _ _ => true
          | _ => false) ∘
         (fun i => DispatchCall.sortParticlesCall (i * UNIFORM_ALIGNMENT) (sortWorkgroups n)))
        (List.range (totalIterations n)) = (List.range (totalIterations n)).length :=
      List.countP_eq_length.mpr (fun a _ => rfl)
    rw [hall, List.length_range]
    simp
  · rw [length_sortingRecords]
    unfold totalIterations
    exact iterationsFor_eq_triangular _

theorem sort_dispatch_count_matches_records_witness :
    (1 ≤ 5 ∧ 5 ≤ 2 ^ 31) ∧
    countSortDispatches (computeNodeDispatches ⟨true, true, true, true, true⟩ 5)
        = (sortingRecords 5).length ∧
    (sortingRecords 5).length = numStages 5 * (numStages 5 + 1) / 2 :=
  ⟨⟨by decide, by norm_num⟩, sort_dispatch_count_matches_records 5 (by decide) (by norm_num)⟩

/-! Claim C3: the fixed dispatch order of the orchestrator. -/

/-- Claim C3: whenever all five compute pipelines are ready, one invocation of
ParticleComputeNode::run issues exactly this dispatch sequence and no other:
bin_particles_in_grid, then one sort_particles dispatch per (stage, step)
iteration in schedule order, then calculate_spatial_lookup_offsets, then
pre_simulation_step, then simulation_step. -/
theorem compute_node_dispatch_order (avail : PipelineAvail) (n : ℕ)
    (hg : avail.grid = true) (hs : avail.sort = true) (ho : avail.offsets = true)
    (hp : avail.preSim = true) (hm : avail.sim = true) :
    computeNodeDispatches avail n =
      [DispatchCall.binParticlesCall (perParticleWorkgroups n)] ++
      (List.range (totalIterations n)).map
        (fun i => DispatchCall.sortParticlesCall (i * UNIFORM_ALIGNMENT) (sortWorkgroups n)) ++
      [DispatchCall.lookupOffsetsCall (perParticleWorkgroups n),
       DispatchCall.preSimStepCall (perParticleWorkgroups n),
       DispatchCall.simStepCall (perParticleWorkgroups n)] := by
  obtain ⟨g, s, o, p, m⟩ := avail
  simp only at hg hs ho hp hm
  subst hg hs ho hp hm
  exact computeNodeDispatches_all n

theorem compute_node_dispatch_order_witness :
    computeNodeDispatches ⟨true, true, true, true, true⟩ 4 =
      [DispatchCall.binParticlesCall (perParticleWorkgroups 4)] ++
      (List.range (totalIterations 4)).map
        (fun i => DispatchCall.sortParticlesCall (i * UNIFORM_ALIGNMENT) (sortWorkgroups 4)) ++
      [DispatchCall.lookupOffsetsCall (perParticleWorkgroups 4),
       DispatchCall.preSimStepCall (perParticleWorkgroups 4),
       DispatchCall.simStepCall (perParticleWorkgroups 4)] :=
  compute_node_dispatch_order ⟨true, true, true, true, true⟩ 4 rfl rfl rfl rfl rfl

/-! Claim C4: layout of the spatial lookup array and the padding tail. -/

/-- Claim C4: the spatial lookup buffer holds exactly next_pow2(n) entries of
two u32 fields, 8 * next_pow2(n) bytes in total, and after binning every
entry at an index at or beyond particle_count is a padding entry whose
cellKey is the maximum representable u32 value. -/
theorem spatial_lookup_layout (n : ℕ) (cellKeyOf : ℕ → ℕ) :
    spatialLookupBufferSize n = 8 * nextPow2 n ∧
    spatialLookupBufferSize n = (4 + 4) * nextPow2 n ∧
    (∀ i, n ≤ i → i < nextPow2 n →
      binParticlesInGrid n cellKeyOf i = (SENTINEL, i)) := by
  refine ⟨by unfold spatialLookupBufferSize; ring, by unfold spatialLookupBufferSize; ring, ?_⟩
  intro i hi _
  unfold binParticlesInGrid
  rw [if_neg (by omega)]

theorem spatial_lookup_layout_witness :
    spatialLookupBufferSize 3 = 8 * nextPow2 3 ∧
    binParticlesInGrid 3 (fun _ => 0) 3 = (SENTINEL, 3) :=
  ⟨(spatial_lookup_layout 3 (fun _ => 0)).1,
   (spatial_lookup_layout 3 (fun _ => 0)).2.2 3 (by decide) (by decide)⟩

/-! Claim C5 (corrected): the sorting parameter table is built and uploaded
once, on the first prepare pass, not on every frame. -/

/-- Counterexample to claim C5 as stated: on any frame after the first
(Local flag ran = true), even with the ParticleSystem entity and the pipeline
buffers present, prepare_particle_buffers performs no write at all to the
sorting params buffer, so the records are not rebuilt and re-uploaded that
frame. -/
theorem sorting_params_not_reuploaded_cex :
    ((preparePass true true true 100000).1).sortingParamsWrites = [] ∧
    ((preparePass true true true 100000).1).configWrites = 1 := by
  constructor <;> rfl

/-- Claim C5 as amended: the SortingParams records (one per sort network
iteration, holding n, group_width, group_height, step_index) are uploaded to
the GPU at most once, and only by the first invocation of
prepare_particle_buffers: that invocation uploads the full table exactly when
the ParticleSystem entity is present, and uploads nothing when it is absent
(the one-shot flag is consumed either way, so the table is then never
uploaded).  Every later invocation performs no sorting-params write at all;
it rewrites the config buffer exactly when the GPUPipelineBuffers component
is present. -/
theorem sorting_params_upload_once (n : ℕ) (psPresent buffersPresent : Bool) :
    ((preparePass false true buffersPresent n).1).sortingParamsWrites = [sortingRecords n] ∧
    ((preparePass false false buffersPresent n).1).sortingParamsWrites = [] ∧
    (preparePass false psPresent buffersPresent n).2 = true ∧
    ((preparePass true psPresent buffersPresent n).1).sortingParamsWrites = [] ∧
    ((preparePass true psPresent buffersPresent n).1).configWrites
      = (if buffersPresent then 1 else 0) := by
  refine ⟨rfl, rfl, rfl, rfl, rfl⟩

/-! Claim C6 (corrected): the actual ParticleConfig field list differs from
the one enumerated by the spec. -/

/-- Counterexample to claim C6 as stated: the spec enumerates a
target_density field (and other SPH constants), but the ParticleConfig struct
of main.rs has no such field, while it does contain an inflow_vel field the
spec does not enumerate. -/
theorem config_fields_mismatch_cex :
    ("target_density" ∈ specConfigFieldNames ∧
      "target_density" ∉ particleConfigFields.map Prod.fst) ∧
    ("inflow_vel" ∈ particleConfigFields.map Prod.fst ∧
      "inflow_vel" ∉ specConfigFieldNames) := by
  decide

/-- Claim C6 as amended: the Configuration block is the fixed-size 144-byte
ParticleConfig struct of main.rs with fields (in order) particle_count,
particle_size, delta_time, gravity, inflow_vel, vertical_jitter, air_density,
air_viscosity, pressure_gradient, padding, screen_bounds, view_proj,
max_energy, smoothing_radius, temp3, temp4, every field size a multiple of
4 bytes (hence every field offset 4-byte aligned); it does not contain the
target_density, pressure_multiplier, near_density_multiplier,
viscosity_strength, damping_factor, fixed_delta_time, frame_count or kernel
normalization fields the spec enumerates. -/
theorem config_layout_correct :
    particleConfigSize = 144 ∧
    (∀ f ∈ particleConfigFields, f.2 % 4 = 0) ∧
    particleConfigFields.map Prod.fst ≠ specConfigFieldNames := by
  decide

/-! Claim C7 (corrected): the stored Particle record has no predicted
position or density fields; seeding produces exactly particle_count records
once, provided the screen bounds are available. -/

/-- Counterexample to claim C7 as stated: the spec enumerates a
predicted_position field and density fields, but the Particle struct of
particle.rs stores only position, velocity and color. -/
theorem particle_fields_mismatch_cex :
    ("predicted_position" ∈ specParticleFields.map Prod.fst ∧
      "predicted_position" ∉ particleFields.map Prod.fst) ∧
    ("density" ∉ particleFields.map Prod.fst) := by
  decide

/-- Claim C7 as amended: the Particle record stored in the particle buffer
consists of a 2-float position, a 2-float velocity and a 4-float color
(8 float lanes, 32 bytes); particle records are created by setup_particles at
most once per session, and exactly particle_count records are spawned when
the screen bounds are available on the first run (none are spawned on later
runs, or when the bounds are unavailable). -/
theorem particle_record_and_seeding (n : ℕ) :
    particleFields = [("position", 2), ("velocity", 2), ("color", 4)] ∧
    (particleFields.map Prod.snd).sum = 8 ∧
    setupParticlesCount false true n = some n ∧
    setupParticlesCount true true n = none ∧
    setupParticlesCount false false n = none := by
  refine ⟨rfl, rfl, rfl, rfl, rfl⟩

/-! Claim C8: the energy clamp bounds the post-integration kinetic energy. -/

/-- Claim C8: for every particle, after the energy clamp of the
force/integrator pass, the kinetic energy 0.5 * |velocity|^2 is at most
max_energy (hence at most max_energy + epsilon for every nonnegative
epsilon), and whenever integration produced a kinetic energy above
max_energy the clamped kinetic energy equals max_energy exactly. -/
theorem energy_clamp_bound (maxE : ℚ) (v vNew : ℚ × ℚ)
    (h : EnergyClamped maxE v vNew) :
    kineticEnergy vNew ≤ maxE ∧
    (maxE < kineticEnergy v → kineticEnergy vNew = maxE) := by
  rcases h with ⟨hle, rfl⟩ | ⟨hgt, _, heq⟩
  · exact ⟨hle, fun hcon => absurd hcon (not_lt.mpr hle)⟩
  · exact ⟨le_of_eq heq, fun _ => heq⟩

theorem energy_clamp_bound_witness :
    EnergyClamped 1 (0, 0) (0, 0) ∧ kineticEnergy (0, 0) ≤ 1 :=
  have hclamp : EnergyClamped 1 (0, 0) (0, 0) :=
    Or.inl ⟨by unfold kineticEnergy; norm_num, rfl⟩
  ⟨hclamp, (energy_clamp_bound 1 (0, 0) (0, 0) hclamp).1⟩

/-! Claim C9: the dynamic uniform offsets of the sort dispatches are aligned
and in bounds. -/

/-- Claim C9: for every particle_count n >= 1 and every sort iteration i, the
dynamic uniform offset passed to sort dispatch i is i * 256, a multiple of
the 256-byte uniform alignment, and i * 256 + size_of(SortingParams) stays
within the sorting params buffer of size total_iterations * 256, so every
sort dispatch reads a fully in-bounds, aligned SortingParams record. -/
theorem sort_dynamic_offset_safe (n i : ℕ) (h1 : 1 ≤ n) (hi : i < totalIterations n) :
    (i * UNIFORM_ALIGNMENT) % UNIFORM_ALIGNMENT = 0 ∧
    i * UNIFORM_ALIGNMENT + sizeOfSortingParams ≤ sortingParamsBufferSize n ∧
    sortingParamsBufferSize n = totalIterations n * UNIFORM_ALIGNMENT := by
  have haligned : alignedSize = UNIFORM_ALIGNMENT := by decide
  refine ⟨Nat.mul_mod_left i UNIFORM_ALIGNMENT, ?_, ?_⟩
  · unfold sortingParamsBufferSize
    rw [haligned]
    have : (i + 1) * UNIFORM_ALIGNMENT ≤ totalIterations n * UNIFORM_ALIGNMENT :=
      Nat.mul_le_mul_right _ hi
    unfold UNIFORM_ALIGNMENT sizeOfSortingParams at *
    omega
  · unfold sortingParamsBufferSize
    rw [haligned]

theorem sort_dynamic_offset_safe_witness :
    (1 ≤ 2 ∧ 0 < totalIterations 2) ∧
    (0 * UNIFORM_ALIGNMENT) % UNIFORM_ALIGNMENT = 0 ∧
    0 * UNIFORM_ALIGNMENT + sizeOfSortingParams ≤ sortingParamsBufferSize 2 ∧
    sortingParamsBufferSize 2 = totalIterations 2 * UNIFORM_ALIGNMENT := by
  have ht : totalIterations 2 = 1 := by
    unfold totalIterations
    rw [numStages_eq]
    decide
  exact ⟨⟨by decide, by rw [ht]; decide⟩,
    sort_dynamic_offset_safe 2 0 (by decide) (by rw [ht]; decide)⟩

/-! Claim C10: dispatch thread coverage. -/

/-- Claim C10: for every particle_count n >= 1, every per-particle dispatch
launches ceil(n / 64) workgroups of 64 threads, at least n threads in total,
and every sort dispatch launches ceil((next_pow2(n) / 2) / 64) workgroups, at
least next_pow2(n) / 2 threads, covering every compare-exchange pair. -/
theorem dispatch_coverage (n : ℕ) (h1 : 1 ≤ n) :
    n ≤ perParticleWorkgroups n * WORKGROUP_SIZE ∧
    numPairs n ≤ sortWorkgroups n * WORKGROUP_SIZE := by
  constructor
  · unfold perParticleWorkgroups WORKGROUP_SIZE
    omega
  · unfold sortWorkgroups WORKGROUP_SIZE
    omega

theorem dispatch_coverage_witness :
    1 ≤ 100 ∧
    100 ≤ perParticleWorkgroups 100 * WORKGROUP_SIZE ∧
    numPairs 100 ≤ sortWorkgroups 100 * WORKGROUP_SIZE :=
  ⟨by decide, dispatch_coverage 100 (by decide)⟩

/-! Generic facts about comparator networks on key states. -/

theorem runNet_nil (s : ℕ → ℕ) : runNet [] s = s := rfl

theorem runNet_cons (c : ℕ × ℕ) (net : List (ℕ × ℕ)) (s : ℕ → ℕ) :
    runNet (c :: net) s = runNet net (cswap c s) := rfl

theorem runNet_append (l1 l2 : List (ℕ × ℕ)) (s : ℕ → ℕ) :
    runNet (l1 ++ l2) s = runNet l2 (runNet l1 s) := by
  unfold runNet
  rw [List.foldl_append]

theorem cswap_fst (c : ℕ × ℕ) (s : ℕ → ℕ) : cswap c s c.1 = min (s c.1) (s c.2) := by
  unfold cswap
  simp

theorem cswap_snd (c : ℕ × ℕ) (s : ℕ → ℕ) (h : c.1 ≠ c.2) :
    cswap c s c.2 = max (s c.1) (s c.2) := by
  unfold cswap
  rw [if_neg (fun hc => h hc.symm), if_pos rfl]

theorem cswap_other (c : ℕ × ℕ) (s : ℕ → ℕ) (k : ℕ) (h1 : k ≠ c.1) (h2 : k ≠ c.2) :
    cswap c s k = s k := by
  unfold cswap
  rw [if_neg h1, if_neg h2]

theorem cswap_cases (c : ℕ × ℕ) (s : ℕ → ℕ) (k : ℕ) :
    cswap c s k = s k ∨ cswap c s k = s c.1 ∨ cswap c s k = s c.2 := by
  unfold cswap
  split_ifs with h1 h2
  · rcases min_choice (s c.1) (s c.2) with h | h
    · exact Or.inr (Or.inl h)
    · exact Or.inr (Or.inr h)
  · rcases max_choice (s c.1) (s c.2) with h | h
    · exact Or.inr (Or.inl h)
    · exact Or.inr (Or.inr h)
  · exact Or.inl rfl

theorem runNet_pred (net : List (ℕ × ℕ)) (B : ℕ → Prop) :
    ∀ s : ℕ → ℕ, (∀ j, B (s j)) → ∀ j, B (runNet net s j) := by
  induction net with
  | nil => intro s h j; exact h j
  | cons c net ih =>
    intro s h j
    rw [runNet_cons]
    refine ih _ (fun j' => ?_) j
    rcases cswap_cases c s j' with hc | hc | hc <;> rw [hc] <;> exact h _

theorem runNet_untouched (net : List (ℕ × ℕ)) (k : ℕ)
    (h : ∀ c ∈ net, c.1 ≠ k ∧ c.2 ≠ k) :
    ∀ s : ℕ → ℕ, runNet net s k = s k := by
  induction net with
  | nil => intro s; rfl
  | cons c net ih =>
    intro s
    rw [runNet_cons]
    rw [ih (fun d hd => h d (List.mem_cons_of_mem _ hd))]
    have hc := h c (List.mem_cons_self _ _)
    exact cswap_other c s k (fun he => hc.1 he.symm) (fun he => hc.2 he.symm)

theorem runNet_pairwise_low (net : List (ℕ × ℕ)) (hpw : net.Pairwise EndpDisj) :
    ∀ a b : ℕ, (a, b) ∈ net → ∀ s : ℕ → ℕ, runNet net s a = min (s a) (s b) := by
  induction net with
  | nil => intro a b hmem; exact absurd hmem (List.not_mem_nil _)
  | cons c net ih =>
    intro a b hmem s
    rw [runNet_cons]
    rcases List.mem_cons.mp hmem with heq | hmem'
    · subst heq
      have hdall : ∀ d ∈ net, d.1 ≠ a ∧ d.2 ≠ a := by
        intro d hd
        have h4 := (List.pairwise_cons.mp hpw).1 d hd
        exact ⟨fun he => h4.1 he.symm, fun he => h4.2.1 he.symm⟩
      rw [runNet_untouched net a hdall]
      exact cswap_fst (a, b) s
    · have hd := (List.pairwise_cons.mp hpw).1 (a, b) hmem'
      rw [ih (List.pairwise_cons.mp hpw).2 a b hmem']
      rw [cswap_other c s a (fun he => hd.1 he.symm) (fun he => hd.2.2.1 he.symm)]
      rw [cswap_other c s b (fun he => hd.2.1 he.symm) (fun he => hd.2.2.2 he.symm)]

theorem runNet_pairwise_high (net : List (ℕ × ℕ)) (hpw : net.Pairwise EndpDisj) :
    ∀ a b : ℕ, (a, b) ∈ net → a ≠ b → ∀ s : ℕ → ℕ, runNet net s b = max (s a) (s b) := by
  induction net with
  | nil => intro a b hmem; exact absurd hmem (List.not_mem_nil _)
  | cons c net ih =>
    intro a b hmem hne s
    rw [runNet_cons]
    rcases List.mem_cons.mp hmem with heq | hmem'
    · subst heq
      have hdall : ∀ d ∈ net, d.1 ≠ b ∧ d.2 ≠ b := by
        intro d hd
        have h4 := (List.pairwise_cons.mp hpw).1 d hd
        exact ⟨fun he => h4.2.2.1 he.symm, fun he => h4.2.2.2 he.symm⟩
      rw [runNet_untouched net b hdall]
      exact cswap_snd (a, b) s hne
    · have hd := (List.pairwise_cons.mp hpw).1 (a, b) hmem'
      rw [ih (List.pairwise_cons.mp hpw).2 a b hmem' hne]
      rw [cswap_other c s a (fun he => hd.1 he.symm) (fun he => hd.2.2.1 he.symm)]
      rw [cswap_other c s b (fun he => hd.2.1 he.symm) (fun he => hd.2.2.2 he.symm)]

theorem cswap_monotone_comm (c : ℕ × ℕ) (f : ℕ → ℕ) (hf : Monotone f) (s : ℕ → ℕ) :
    cswap c (fun j => f (s j)) = fun j => f (cswap c s j) := by
  funext k
  unfold cswap
  rcases le_total (s c.1) (s c.2) with hle | hle
  · rw [min_eq_left hle, min_eq_left (hf hle), max_eq_right hle, max_eq_right (hf hle)]
    split_ifs <;> rfl
  · rw [min_eq_right hle, min_eq_right (hf hle), max_eq_left hle, max_eq_left (hf hle)]
    split_ifs <;> rfl

theorem runNet_monotone (net : List (ℕ × ℕ)) (f : ℕ → ℕ) (hf : Monotone f) :
    ∀ s : ℕ → ℕ, runNet net (fun j => f (s j)) = fun j => f (runNet net s j) := by
  induction net with
  | nil => intro s; rfl
  | cons c net ih =>
    intro s
    rw [runNet_cons, cswap_monotone_comm c f hf s, ih]
    rfl

theorem runNet_region_pred (net : List (ℕ × ℕ)) (lo len : ℕ) (B : ℕ → Prop)
    (hin : ∀ c ∈ net, ((lo ≤ c.1 ∧ c.1 < lo + len) ↔ (lo ≤ c.2 ∧ c.2 < lo + len))) :
    ∀ s : ℕ → ℕ, (∀ r, lo ≤ r → r < lo + len → B (s r)) →
      ∀ r, lo ≤ r → r < lo + len → B (runNet net s r) := by
  induction net with
  | nil => intro s h r h1 h2; exact h r h1 h2
  | cons c net ih =>
    intro s h r h1 h2
    rw [runNet_cons]
    refine ih (fun d hd => hin d (List.mem_cons_of_mem _ hd)) _ ?_ r h1 h2
    intro r' hr1 hr2
    have hc := hin c (List.mem_cons_self _ _)
    by_cases h1' : r' = c.1
    · subst h1'
      rw [cswap_fst]
      have hc2 : lo ≤ c.2 ∧ c.2 < lo + len := hc.mp ⟨hr1, hr2⟩
      rcases min_choice (s c.1) (s c.2) with he | he <;> rw [he]
      · exact h _ hr1 hr2
      · exact h _ hc2.1 hc2.2
    · by_cases h2' : r' = c.2
      · subst h2'
        have hc1 : lo ≤ c.1 ∧ c.1 < lo + len := hc.mpr ⟨hr1, hr2⟩
        unfold cswap
        rw [if_neg h1', if_pos rfl]
        rcases max_choice (s c.1) (s c.2) with he | he <;> rw [he]
        · exact h _ hc1.1 hc1.2
        · exact h _ hr1 hr2
      · rw [cswap_other c s r' h1' h2']
        exact h _ hr1 hr2

/-! Relating entry-level runs to key-level runs. -/

theorem runNetE_cons (c : ℕ × ℕ) (net : List (ℕ × ℕ)) (s : ℕ → Entry) :
    runNetE (c :: net) s = runNetE net (cswapE c s) := rfl

theorem cswapE_key (c : ℕ × ℕ) (s : ℕ → Entry) :
    (fun j => (cswapE c s j).1) = cswap c (fun j => (s j).1) := by
  funext j
  unfold cswapE cswap
  rcases le_or_lt (s c.1).1 (s c.2).1 with hle | hlt
  · rw [if_pos hle, min_eq_left hle, max_eq_right hle]
    split_ifs with h1 h2
    · rw [h1]
    · rw [h2]
    · rfl
  · rw [if_neg (not_le.mpr hlt), min_eq_right hlt.le, max_eq_left hlt.le]
    split_ifs with h1 h2 <;> rfl

theorem runNetE_key (net : List (ℕ × ℕ)) :
    ∀ s : ℕ → Entry, (fun j => (runNetE net s j).1) = runNet net (fun j => (s j).1) := by
  induction net with
  | nil => intro s; rfl
  | cons c net ih =>
    intro s
    rw [runNetE_cons, runNet_cons, ih (cswapE c s), cswapE_key]

theorem cswapE_cases (c : ℕ × ℕ) (s : ℕ → Entry) (k : ℕ) :
    cswapE c s k = s k ∨ cswapE c s k = s c.1 ∨ cswapE c s k = s c.2 := by
  unfold cswapE
  split_ifs
  · exact Or.inl rfl
  · exact Or.inr (Or.inr rfl)
  · exact Or.inr (Or.inl rfl)
  · exact Or.inl rfl

theorem cswapE_other (c : ℕ × ℕ) (s : ℕ → Entry) (k : ℕ) (h1 : k ≠ c.1) (h2 : k ≠ c.2) :
    cswapE c s k = s k := by
  unfold cswapE
  by_cases hle : (s c.1).1 ≤ (s c.2).1
  · rw [if_pos hle]
  · rw [if_neg hle, if_neg h1, if_neg h2]

/-- Padding entries never move: as long as every position from n on (below P)
carries the maximal key and every comparator is an ascending pair inside P,
the run leaves every position from n on untouched, and positions below n keep
holding entries whose particleIndex is below n. -/
theorem runNetE_fixes_tail (P n M : ℕ) (net : List (ℕ × ℕ))
    (hnet : ∀ c ∈ net, c.1 < c.2 ∧ c.2 < P) :
    ∀ s : ℕ → Entry,
      (∀ j, j < P → (s j).1 ≤ M) →
      (∀ j, n ≤ j → j < P → (s j).1 = M) →
      (∀ j, j < n → (s j).2 < n) →
      (∀ j, n ≤ j → runNetE net s j = s j) ∧
      (∀ j, j < n → (runNetE net s j).2 < n) := by
  induction net with
  | nil => intro s _ _ hreal; exact ⟨fun j _ => rfl, fun j hj => hreal j hj⟩
  | cons c net ih =>
    intro s hkey htail hreal
    have hc := hnet c (List.mem_cons_self _ _)
    have hrest : ∀ d ∈ net, d.1 < d.2 ∧ d.2 < P :=
      fun d hd => hnet d (List.mem_cons_of_mem _ hd)
    by_cases hhi : c.2 < n
    · -- both endpoints below n: the swap stays inside the real prefix
      have hlo : c.1 < n := lt_trans hc.1 hhi
      have hkey' : ∀ j, j < P → (cswapE c s j).1 ≤ M := by
        intro j hj
        rcases cswapE_cases c s j with he | he | he <;> rw [he]
        · exact hkey j hj
        · exact hkey c.1 (lt_trans hc.1 hc.2)
        · exact hkey c.2 hc.2
      have htail' : ∀ j, n ≤ j → j < P → (cswapE c s j).1 = M := by
        intro j hj1 hj2
        rw [cswapE_other c s j (fun he => absurd (he ▸ hj1) (not_le.mpr hlo))
          (fun he => absurd (he ▸ hj1) (not_le.mpr hhi))]
        exact htail j hj1 hj2
      have hreal' : ∀ j, j < n → (cswapE c s j).2 < n := by
        intro j hj
        rcases cswapE_cases c s j with he | he | he <;> rw [he]
        · exact hreal j hj
        · exact hreal c.1 hlo
        · exact hreal c.2 hhi
      have := ih hrest (cswapE c s) hkey' htail' hreal'
      refine ⟨fun j hj => ?_, this.2⟩
      rw [runNetE_cons, this.1 j hj]
      exact cswapE_other c s j (fun he => absurd (he ▸ hj) (not_le.mpr hlo))
        (fun he => absurd (he ▸ hj) (not_le.mpr hhi))
    · -- the high endpoint is a padding slot: the comparator never fires
      have hfire : (s c.1).1 ≤ (s c.2).1 := by
        have h2 : (s c.2).1 = M := htail c.2 (le_of_not_lt hhi) hc.2
        rw [h2]
        exact hkey c.1 (lt_trans hc.1 hc.2)
      have hfix : cswapE c s = s := by
        funext j
        unfold cswapE
        rw [if_pos hfire]
      rw [runNetE_cons, hfix]
      exact ih hrest s hkey htail hreal

/-! Structure of the mirror and half-cleaner comparator lists. -/

theorem block_decomp (m : ℕ) (hm : 0 < m) (q h q' h' : ℕ) (hh : h < m) (hh' : h' < m)
    (heq : m * q + h = m * q' + h') : q = q' ∧ h = h' := by
  have h1 : (m * q + h) / m = q := by
    rw [Nat.mul_add_div hm, Nat.div_eq_of_lt hh, Nat.add_zero]
  have h2 : (m * q' + h') / m = q' := by
    rw [Nat.mul_add_div hm, Nat.div_eq_of_lt hh', Nat.add_zero]
  have h3 : (m * q + h) % m = h := by
    rw [Nat.mul_add_mod, Nat.mod_eq_of_lt hh]
  have h4 : (m * q' + h') % m = h' := by
    rw [Nat.mul_add_mod, Nat.mod_eq_of_lt hh']
  constructor
  · rw [← h1, ← h2, heq]
  · rw [← h3, ← h4, heq]

theorem index_decomp (G i : ℕ) (hG : 0 < G) :
    i = G * (i / G) + i % G ∧ i % G < G :=
  ⟨(Nat.div_add_mod i G).symm, Nat.mod_lt _ hG⟩

theorem mirrorComps_mem_iff (G B : ℕ) (hG : 0 < G) (c : ℕ × ℕ) :
    c ∈ mirrorComps G B ↔
      ∃ b h, b < B ∧ h < G ∧ c = (2 * G * b + h, 2 * G * b + (2 * G - 1 - h)) := by
  unfold mirrorComps
  rw [List.mem_map]
  constructor
  · rintro ⟨i, hi, rfl⟩
    rw [List.mem_range] at hi
    refine ⟨i / G, i % G, ?_, Nat.mod_lt _ hG, rfl⟩
    rw [Nat.div_lt_iff_lt_mul hG]
    exact hi
  · rintro ⟨b, h, hb, hh, rfl⟩
    refine ⟨b * G + h, ?_, ?_⟩
    · rw [List.mem_range]
      calc b * G + h < b * G + G := by omega
        _ = (b + 1) * G := by ring
        _ ≤ B * G := Nat.mul_le_mul_right G hb
    · have hdiv : (b * G + h) / G = b := by
        rw [mul_comm b G, Nat.mul_add_div hG, Nat.div_eq_of_lt hh, Nat.add_zero]
      have hmod : (b * G + h) % G = h := by
        rw [mul_comm b G, Nat.mul_add_mod, Nat.mod_eq_of_lt hh]
      rw [hdiv, hmod]

theorem halfComps_mem_iff (G B : ℕ) (hG : 0 < G) (c : ℕ × ℕ) :
    c ∈ halfComps G B ↔
      ∃ b h, b < B ∧ h < G ∧ c = (2 * G * b + h, 2 * G * b + h + G) := by
  unfold halfComps
  rw [List.mem_map]
  constructor
  · rintro ⟨i, hi, rfl⟩
    rw [List.mem_range] at hi
    refine ⟨i / G, i % G, ?_, Nat.mod_lt _ hG, rfl⟩
    rw [Nat.div_lt_iff_lt_mul hG]
    exact hi
  · rintro ⟨b, h, hb, hh, rfl⟩
    refine ⟨b * G + h, ?_, ?_⟩
    · rw [List.mem_range]
      calc b * G + h < b * G + G := by omega
        _ = (b + 1) * G := by ring
        _ ≤ B * G := Nat.mul_le_mul_right G hb
    · have hdiv : (b * G + h) / G = b := by
        rw [mul_comm b G, Nat.mul_add_div hG, Nat.div_eq_of_lt hh, Nat.add_zero]
      have hmod : (b * G + h) % G = h := by
        rw [mul_comm b G, Nat.mul_add_mod, Nat.mod_eq_of_lt hh]
      rw [hdiv, hmod]

theorem mirrorComps_bounds (G B : ℕ) (hG : 0 < G) :
    ∀ c ∈ mirrorComps G B, c.1 < c.2 ∧ c.2 < 2 * G * B := by
  intro c hc
  rw [mirrorComps_mem_iff G B hG] at hc
  obtain ⟨b, h, hb, hh, rfl⟩ := hc
  constructor
  · simp only
    omega
  · simp only
    calc 2 * G * b + (2 * G - 1 - h) < 2 * G * b + 2 * G := by omega
      _ = 2 * G * (b + 1) := by ring
      _ ≤ 2 * G * B := Nat.mul_le_mul_left _ hb

theorem halfComps_bounds (G B : ℕ) (hG : 0 < G) :
    ∀ c ∈ halfComps G B, c.1 < c.2 ∧ c.2 < 2 * G * B := by
  intro c hc
  rw [halfComps_mem_iff G B hG] at hc
  obtain ⟨b, h, hb, hh, rfl⟩ := hc
  constructor
  · simp only
    omega
  · simp only
    calc 2 * G * b + h + G < 2 * G * b + 2 * G := by omega
      _ = 2 * G * (b + 1) := by ring
      _ ≤ 2 * G * B := Nat.mul_le_mul_left _ hb

theorem mirrorComps_pairwise (G B : ℕ) (hG : 0 < G) :
    (mirrorComps G B).Pairwise EndpDisj := by
  unfold mirrorComps
  rw [List.pairwise_map]
  refine (List.pairwise_lt_range _).imp ?_
  intro i j hij
  have hiG : i % G < G := Nat.mod_lt _ hG
  have hjG : j % G < G := Nat.mod_lt _ hG
  have hidm := Nat.div_add_mod i G
  have hjdm := Nat.div_add_mod j G
  refine ⟨?_, ?_, ?_, ?_⟩ <;> intro heq <;> simp only at heq
  · rcases block_decomp (2 * G) (by omega) (i / G) (i % G) (j / G) (j % G)
      (by omega) (by omega) heq with ⟨h1, h2⟩
    have hA : G * (i / G) = G * (j / G) := by rw [h1]
    omega
  · rcases block_decomp (2 * G) (by omega) (i / G) (i % G) (j / G) (2 * G - 1 - j % G)
      (by omega) (by omega) heq with ⟨h1, h2⟩
    omega
  · rcases block_decomp (2 * G) (by omega) (i / G) (2 * G - 1 - i % G) (j / G) (j % G)
      (by omega) (by omega) heq with ⟨h1, h2⟩
    omega
  · rcases block_decomp (2 * G) (by omega) (i / G) (2 * G - 1 - i % G) (j / G) (2 * G - 1 - j % G)
      (by omega) (by omega) heq with ⟨h1, h2⟩
    have hA : G * (i / G) = G * (j / G) := by rw [h1]
    omega

theorem halfComps_pairwise (G B : ℕ) (hG : 0 < G) :
    (halfComps G B).Pairwise EndpDisj := by
  unfold halfComps
  rw [List.pairwise_map]
  refine (List.pairwise_lt_range _).imp ?_
  intro i j hij
  have hiG : i % G < G := Nat.mod_lt _ hG
  have hjG : j % G < G := Nat.mod_lt _ hG
  have hidm := Nat.div_add_mod i G
  have hjdm := Nat.div_add_mod j G
  refine ⟨?_, ?_, ?_, ?_⟩ <;> intro heq <;> simp only at heq
  · rcases block_decomp (2 * G) (by omega) (i / G) (i % G) (j / G) (j % G)
      (by omega) (by omega) heq with ⟨h1, h2⟩
    have hA : G * (i / G) = G * (j / G) := by rw [h1]
    omega
  · rcases block_decomp (2 * G) (by omega) (i / G) (i % G) (j / G) (j % G + G)
      (by omega) (by omega) (by omega) with ⟨h1, h2⟩
    omega
  · rcases block_decomp (2 * G) (by omega) (i / G) (i % G + G) (j / G) (j % G)
      (by omega) (by omega) (by omega) with ⟨h1, h2⟩
    omega
  · rcases block_decomp (2 * G) (by omega) (i / G) (i % G + G) (j / G) (j % G + G)
      (by omega) (by omega) (by omega) with ⟨h1, h2⟩
    have hA : G * (i / G) = G * (j / G) := by rw [h1]
    omega

/-! Values computed by one mirror or half-cleaner dispatch. -/

theorem runNet_mirror_low (G B b h : ℕ) (hG : 0 < G) (hb : b < B) (hh : h < G) (s : ℕ → ℕ) :
    runNet (mirrorComps G B) s (2 * G * b + h)
      = min (s (2 * G * b + h)) (s (2 * G * b + (2 * G - 1 - h))) := by
  refine runNet_pairwise_low _ (mirrorComps_pairwise G B hG) _ _ ?_ s
  rw [mirrorComps_mem_iff G B hG]
  exact ⟨b, h, hb, hh, rfl⟩

theorem runNet_mirror_high (G B b h : ℕ) (hG : 0 < G) (hb : b < B) (hh : h < G) (s : ℕ → ℕ) :
    runNet (mirrorComps G B) s (2 * G * b + (2 * G - 1 - h))
      = max (s (2 * G * b + h)) (s (2 * G * b + (2 * G - 1 - h))) := by
  refine runNet_pairwise_high _ (mirrorComps_pairwise G B hG) _ _ ?_ (by omega) s
  rw [mirrorComps_mem_iff G B hG]
  exact ⟨b, h, hb, hh, rfl⟩

theorem runNet_half_low (G B b h : ℕ) (hG : 0 < G) (hb : b < B) (hh : h < G) (s : ℕ → ℕ) :
    runNet (halfComps G B) s (2 * G * b + h)
      = min (s (2 * G * b + h)) (s (2 * G * b + h + G)) := by
  refine runNet_pairwise_low _ (halfComps_pairwise G B hG) _ _ ?_ s
  rw [halfComps_mem_iff G B hG]
  exact ⟨b, h, hb, hh, rfl⟩

theorem runNet_half_high (G B b h : ℕ) (hG : 0 < G) (hb : b < B) (hh : h < G) (s : ℕ → ℕ) :
    runNet (halfComps G B) s (2 * G * b + h + G)
      = max (s (2 * G * b + h)) (s (2 * G * b + h + G)) := by
  refine runNet_pairwise_high _ (halfComps_pairwise G B hG) _ _ ?_ (by omega) s
  rw [halfComps_mem_iff G B hG]
  exact ⟨b, h, hb, hh, rfl⟩

/-- A half-cleaner dispatch keeps each of its own blocks closed: every
comparator has both endpoints inside the same size-2G block. -/
theorem halfComps_region (G B base : ℕ) (hG : 0 < G) :
    ∀ c ∈ halfComps G B,
      ((2 * G * base ≤ c.1 ∧ c.1 < 2 * G * base + 2 * G) ↔
       (2 * G * base ≤ c.2 ∧ c.2 < 2 * G * base + 2 * G)) := by
  intro c hc
  rw [halfComps_mem_iff G B hG] at hc
  obtain ⟨b, h, hb, hh, rfl⟩ := hc
  simp only
  constructor
  · rintro ⟨h1, h2⟩
    have hbase : b = base := by
      rcases block_decomp (2 * G) (by omega) b h base ((2 * G * b + h) - 2 * G * base)
        (by omega) (by omega) (by omega) with ⟨he, _⟩
      exact he
    subst hbase
    omega
  · rintro ⟨h1, h2⟩
    have hbase : b = base := by
      rcases block_decomp (2 * G) (by omega) b (h + G) base ((2 * G * b + h + G) - 2 * G * base)
        (by omega) (by omega) (by omega) with ⟨he, _⟩
      exact he
    subst hbase
    omega

/-! Bridging the shader comparator list, computed from an uploaded record, to
the mirror / half-cleaner normal forms. -/

theorem two_pow_mul_pow (g K : ℕ) (hg : g < K) :
    2 * 2 ^ g * 2 ^ (K - g - 1) = 2 ^ K := by
  have h1 : (2 : ℕ) * 2 ^ g = 2 ^ (g + 1) := by
    rw [pow_succ, mul_comm]
  rw [h1, ← pow_add]
  congr 1
  omega

theorem pow_div_two (K : ℕ) (hK : 0 < K) : (2 : ℕ) ^ K / 2 = 2 ^ (K - 1) := by
  have h1 : (2 : ℕ) ^ K = 2 * 2 ^ (K - 1) := by
    rw [← pow_succ']
    congr 1
    omega
  rw [h1, Nat.mul_div_cancel_left _ (by norm_num)]

theorem comparatorList_mirror (K g : ℕ) (hg : g < K) :
    comparatorList ⟨2 ^ K, 2 ^ g, 2 * 2 ^ g - 1, 0⟩
      = mirrorComps (2 ^ g) (2 ^ (K - g - 1)) := by
  have hT : (0 : ℕ) < 2 ^ g := Nat.two_pow_pos g
  have hN : (2 : ℕ) ^ K / 2 = 2 ^ (K - g - 1) * 2 ^ g := by
    rw [pow_div_two K (by omega)]
    rw [mul_comm, ← pow_add]
    congr 1
    omega
  unfold comparatorList mirrorComps
  dsimp only
  rw [hN]
  rw [← List.filterMap_eq_map (fun i =>
    (2 * 2 ^ g * (i / 2 ^ g) + i % 2 ^ g, 2 * 2 ^ g * (i / 2 ^ g) + (2 * 2 ^ g - 1 - i % 2 ^ g)))]
  apply List.filterMap_congr
  intro i hi
  rw [List.mem_range] at hi
  have hh : i % 2 ^ g < 2 ^ g := Nat.mod_lt _ hT
  have hq1 : i / 2 ^ g + 1 ≤ 2 ^ (K - g - 1) := by
    have := (Nat.div_lt_iff_lt_mul hT).mpr hi
    omega
  have hgh : (2 * 2 ^ g - 1 + 1 : ℕ) = 2 * 2 ^ g := by omega
  simp only [hgh, if_true, eq_self_iff_true]
  have hbound : i % 2 ^ g + 2 * 2 ^ g * (i / 2 ^ g) + (2 * 2 ^ g - 1 - 2 * (i % 2 ^ g))
      < 2 ^ K := by
    have h2 : 2 * 2 ^ g * (i / 2 ^ g) + 2 * 2 ^ g = 2 * 2 ^ g * (i / 2 ^ g + 1) := by ring
    have h3 : 2 * 2 ^ g * (i / 2 ^ g + 1) ≤ 2 * 2 ^ g * 2 ^ (K - g - 1) :=
      Nat.mul_le_mul_left _ hq1
    have h4 := two_pow_mul_pow g K hg
    omega
  rw [if_pos hbound]
  have hfst : i % 2 ^ g + 2 * 2 ^ g * (i / 2 ^ g) = 2 * 2 ^ g * (i / 2 ^ g) + i % 2 ^ g := by
    omega
  have hsnd : 2 * 2 ^ g * (i / 2 ^ g) + i % 2 ^ g + (2 * 2 ^ g - 1 - 2 * (i % 2 ^ g))
      = 2 * 2 ^ g * (i / 2 ^ g) + (2 * 2 ^ g - 1 - i % 2 ^ g) := by
    omega
  rw [hfst, hsnd]
  rfl

theorem comparatorList_half (K g t : ℕ) (hg : g < K) (ht : t ≠ 0) :
    comparatorList ⟨2 ^ K, 2 ^ g, 2 * 2 ^ g - 1, t⟩
      = halfComps (2 ^ g) (2 ^ (K - g - 1)) := by
  have hT : (0 : ℕ) < 2 ^ g := Nat.two_pow_pos g
  have hN : (2 : ℕ) ^ K / 2 = 2 ^ (K - g - 1) * 2 ^ g := by
    rw [pow_div_two K (by omega)]
    rw [mul_comm, ← pow_add]
    congr 1
    omega
  unfold comparatorList halfComps
  dsimp only
  rw [hN]
  rw [← List.filterMap_eq_map (fun i =>
    (2 * 2 ^ g * (i / 2 ^ g) + i % 2 ^ g, 2 * 2 ^ g * (i / 2 ^ g) + i % 2 ^ g + 2 ^ g))]
  apply List.filterMap_congr
  intro i hi
  rw [List.mem_range] at hi
  have hh : i % 2 ^ g < 2 ^ g := Nat.mod_lt _ hT
  have hq1 : i / 2 ^ g + 1 ≤ 2 ^ (K - g - 1) := by
    have := (Nat.div_lt_iff_lt_mul hT).mpr hi
    omega
  have hgh : (2 * 2 ^ g - 1 + 1 : ℕ) = 2 * 2 ^ g := by omega
  have hdist : (2 * 2 ^ g : ℕ) / 2 = 2 ^ g := Nat.mul_div_cancel_left _ (by norm_num)
  simp only [hgh, if_neg ht, hdist]
  have hbound : i % 2 ^ g + 2 * 2 ^ g * (i / 2 ^ g) + 2 ^ g < 2 ^ K := by
    have h2 : 2 * 2 ^ g * (i / 2 ^ g) + 2 * 2 ^ g = 2 * 2 ^ g * (i / 2 ^ g + 1) := by ring
    have h3 : 2 * 2 ^ g * (i / 2 ^ g + 1) ≤ 2 * 2 ^ g * 2 ^ (K - g - 1) :=
      Nat.mul_le_mul_left _ hq1
    have h4 := two_pow_mul_pow g K hg
    omega
  rw [if_pos hbound]
  have hfst : i % 2 ^ g + 2 * 2 ^ g * (i / 2 ^ g) + 2 ^ g
      = 2 * 2 ^ g * (i / 2 ^ g) + i % 2 ^ g + 2 ^ g := by
    omega
  rw [hfst]
  have hfst2 : i % 2 ^ g + 2 * 2 ^ g * (i / 2 ^ g) = 2 * 2 ^ g * (i / 2 ^ g) + i % 2 ^ g := by
    omega
  rw [hfst2]
  rfl

theorem stageStepNetPow_eq (n K sigma t : ℕ) (hK : K = ceilLog2 n) (hs : sigma < K)
    (ht : t ≤ sigma) :
    comparatorList (sortRecord n sigma t) = stageStepNetPow K sigma t := by
  subst hK
  by_cases h0 : t = 0
  · subst h0
    unfold stageStepNetPow
    rw [if_pos rfl]
    exact comparatorList_mirror (ceilLog2 n) sigma hs
  · unfold stageStepNetPow
    rw [if_neg h0]
    exact comparatorList_half (ceilLog2 n) (sigma - t) t (by omega) h0

theorem fullNetwork_eq_pow (n : ℕ) : fullNetwork n = fullNetPow (ceilLog2 n) := by
  unfold fullNetwork fullNetPow sortingRecords stageNetPow
  rw [numStages_eq]
  rw [List.bind_assoc]
  apply List.bind_congr
  intro sigma hsig
  rw [List.mem_range] at hsig
  rw [List.bind_map]
  apply List.bind_congr
  intro t htm
  rw [List.mem_range] at htm
  exact stageStepNetPow_eq n (ceilLog2 n) sigma t rfl hsig (by omega)

theorem stageStepNetPow_bounds (K sigma t : ℕ) (hs : sigma < K) (ht : t ≤ sigma) :
    ∀ c ∈ stageStepNetPow K sigma t, c.1 < c.2 ∧ c.2 < 2 ^ K := by
  intro c hc
  unfold stageStepNetPow at hc
  by_cases h0 : t = 0
  · rw [if_pos h0] at hc
    have := mirrorComps_bounds (2 ^ sigma) (2 ^ (K - sigma - 1)) (Nat.two_pow_pos _) c hc
    rwa [two_pow_mul_pow sigma K hs] at this
  · rw [if_neg h0] at hc
    have := halfComps_bounds (2 ^ (sigma - t)) (2 ^ (K - (sigma - t) - 1))
      (Nat.two_pow_pos _) c hc
    rwa [two_pow_mul_pow (sigma - t) K (by omega)] at this

theorem fullNetPow_bounds (K : ℕ) : ∀ c ∈ fullNetPow K, c.1 < c.2 ∧ c.2 < 2 ^ K := by
  intro c hc
  unfold fullNetPow stageNetPow at hc
  rw [List.mem_bind] at hc
  obtain ⟨sigma, hsig, hc⟩ := hc
  rw [List.mem_range] at hsig
  rw [List.mem_bind] at hc
  obtain ⟨t, htm, hc⟩ := hc
  rw [List.mem_range] at htm
  exact stageStepNetPow_bounds K sigma t hsig (by omega) c hc

/-! The 0-1 combinatorics of one mirror step and one half-cleaner step on a
single block. -/

theorem shiftF_shift (v : ℕ → ℕ) (off m : ℕ) :
    (fun r => shiftF v off (m + r)) = shiftF v (off + m) := by
  funext r
  unfold shiftF
  congr 1
  omega

theorem onesRun_normalize (v : ℕ → ℕ) (len a b : ℕ) (h : OnesRun v len a b) :
    ∃ a' b', a' ≤ b' ∧ b' ≤ len ∧ OnesRun v len a' b' := by
  by_cases hab : a < b ∧ a < len
  · refine ⟨a, min b len, by omega, by omega, ?_⟩
    intro r hr
    rw [h r hr]
    split_ifs <;> omega
  · refine ⟨0, 0, le_rfl, Nat.zero_le len, ?_⟩
    intro r hr
    rw [h r hr]
    split_ifs <;> omega

theorem zerosRun_normalize (v : ℕ → ℕ) (len a b : ℕ) (h : ZerosRun v len a b) :
    ∃ a' b', a' ≤ b' ∧ b' ≤ len ∧ ZerosRun v len a' b' := by
  by_cases hab : a < b ∧ a < len
  · refine ⟨a, min b len, by omega, by omega, ?_⟩
    intro r hr
    rw [h r hr]
    split_ifs <;> omega
  · refine ⟨0, 0, le_rfl, Nat.zero_le len, ?_⟩
    intro r hr
    rw [h r hr]
    split_ifs <;> omega

/-- One mirror step on a block of size 2G whose halves are sorted 0-1 blocks
with z1 and z2 zeros: the lower half becomes a ones run, the upper half a
zeros run, and the halves are separated. -/
theorem mirror_core (v w : ℕ → ℕ) (G z1 z2 : ℕ) (hG : 0 < G)
    (hz1 : ∀ r < G, v r = if r < z1 then 0 else 1)
    (hz2 : ∀ r < G, v (G + r) = if r < z2 then 0 else 1)
    (hlow : ∀ h < G, w h = min (v h) (v (2 * G - 1 - h)))
    (hhigh : ∀ h < G, w (2 * G - 1 - h) = max (v h) (v (2 * G - 1 - h))) :
    OnesRun w G z1 (G - z2) ∧ ZerosRun (fun r => w (G + r)) G (G - z1) z2 ∧
    Sep01 w (fun r => w (G + r)) G G := by
  have hmirr : ∀ h < G, v (2 * G - 1 - h) = if G - 1 - h < z2 then 0 else 1 := by
    intro h hh
    have hpos : 2 * G - 1 - h = G + (G - 1 - h) := by omega
    rw [hpos]
    exact hz2 (G - 1 - h) (by omega)
  have h1 : OnesRun w G z1 (G - z2) := by
    intro r hr
    rw [hlow r hr, hz1 r hr, hmirr r hr, Nat.min_def]
    split_ifs <;> omega
  have h2 : ZerosRun (fun r => w (G + r)) G (G - z1) z2 := by
    intro r hr
    show w (G + r) = _
    have hpos : G + r = 2 * G - 1 - (G - 1 - r) := by omega
    rw [hpos, hhigh (G - 1 - r) (by omega), hz1 (G - 1 - r) (by omega)]
    rw [show 2 * G - 1 - (G - 1 - r) = G + r by omega, hz2 r hr, Nat.max_def]
    split_ifs <;> omega
  refine ⟨h1, h2, ?_⟩
  by_cases hs : G - z2 ≤ z1
  · left
    intro r hr
    rw [h1 r hr, if_neg (by omega)]
  · right
    intro r hr
    rw [h2 r hr, if_neg (by omega)]

/-- One half-cleaner on a bitonic 0-1 block of size 2m: both halves stay
bitonic and become separated. -/
theorem half_core (v w : ℕ → ℕ) (m : ℕ) (hm : 0 < m)
    (hbit : Bitonic01 v (2 * m))
    (hlow : ∀ h < m, w h = min (v h) (v (m + h)))
    (hhigh : ∀ h < m, w (m + h) = max (v h) (v (m + h))) :
    Bitonic01 w m ∧ Bitonic01 (fun r => w (m + r)) m ∧
    Sep01 w (fun r => w (m + r)) m m := by
  rcases hbit with ⟨a0, b0, hA0⟩ | ⟨a0, b0, hA0⟩
  · -- ones form the run [a, b)
    obtain ⟨a, b, hab, hblen, hA⟩ := onesRun_normalize v (2 * m) a0 b0 hA0
    have hlowpat : OnesRun w m a (b - m) := by
      intro h hh
      rw [hlow h hh, hA h (by omega), hA (m + h) (by omega), Nat.min_def]
      split_ifs <;> omega
    have hhighpat : ∀ h < m, w (m + h)
        = max (if a ≤ h ∧ h < b then 1 else 0) (if a ≤ m + h ∧ m + h < b then 1 else 0) := by
      intro h hh
      rw [hhigh h hh, hA h (by omega), hA (m + h) (by omega)]
    refine ⟨Or.inl ⟨a, b - m, hlowpat⟩, ?_, ?_⟩
    · by_cases hc1 : b ≤ m
      · refine Or.inl ⟨a, b, ?_⟩
        intro h hh
        show w (m + h) = _
        rw [hhighpat h hh, Nat.max_def]
        split_ifs <;> omega
      · by_cases hc2 : a ≤ b - m
        · refine Or.inl ⟨a - m, m, ?_⟩
          intro h hh
          show w (m + h) = _
          rw [hhighpat h hh, Nat.max_def]
          split_ifs <;> omega
        · by_cases hc3 : a ≤ m
          · refine Or.inr ⟨b - m, a, ?_⟩
            intro h hh
            show w (m + h) = _
            rw [hhighpat h hh, Nat.max_def]
            split_ifs <;> omega
          · refine Or.inl ⟨a - m, b - m, ?_⟩
            intro h hh
            show w (m + h) = _
            rw [hhighpat h hh, Nat.max_def]
            split_ifs <;> omega
    · by_cases hs : b - m ≤ a ∨ m ≤ a
      · left
        intro r hr
        rw [hlowpat r hr, if_neg (by omega)]
      · right
        push_neg at hs
        intro r hr
        show w (m + r) = 1
        rw [hhighpat r hr, Nat.max_def]
        split_ifs <;> omega
  · -- zeros form the run [a, b)
    obtain ⟨a, b, hab, hblen, hA⟩ := zerosRun_normalize v (2 * m) a0 b0 hA0
    have hhighpat : ZerosRun (fun r => w (m + r)) m a (b - m) := by
      intro h hh
      show w (m + h) = _
      rw [hhigh h hh, hA h (by omega), hA (m + h) (by omega), Nat.max_def]
      split_ifs <;> omega
    have hlowpat : ∀ h < m, w h
        = min (if a ≤ h ∧ h < b then 0 else 1) (if a ≤ m + h ∧ m + h < b then 0 else 1) := by
      intro h hh
      rw [hlow h hh, hA h (by omega), hA (m + h) (by omega)]
    refine ⟨?_, Or.inr ⟨a, b - m, hhighpat⟩, ?_⟩
    · by_cases hc1 : b ≤ m
      · refine Or.inr ⟨a, b, ?_⟩
        intro h hh
        rw [hlowpat h hh, Nat.min_def]
        split_ifs <;> omega
      · by_cases hc2 : a ≤ b - m
        · refine Or.inr ⟨a - m, m, ?_⟩
          intro h hh
          rw [hlowpat h hh, Nat.min_def]
          split_ifs <;> omega
        · by_cases hc3 : a ≤ m
          · refine Or.inl ⟨b - m, a, ?_⟩
            intro h hh
            rw [hlowpat h hh, Nat.min_def]
            split_ifs <;> omega
          · refine Or.inr ⟨a - m, b - m, ?_⟩
            intro h hh
            rw [hlowpat h hh, Nat.min_def]
            split_ifs <;> omega
    · by_cases hs : b - m ≤ a ∨ m ≤ a
      · right
        intro r hr
        rw [hhighpat r hr, if_neg (by omega)]
      · left
        push_neg at hs
        intro r hr
        rw [hlowpat r hr, Nat.min_def]
        split_ifs <;> omega

/-! Array-level stage transitions. -/

theorem mirror_transition (k sigma : ℕ) (hs : sigma < k) (st : ℕ → ℕ)
    (hout : OuterInv st k sigma) :
    StageInv (runNet (mirrorComps (2 ^ sigma) (2 ^ (k - sigma - 1))) st) k sigma 0 := by
  have hG : (0 : ℕ) < 2 ^ sigma := Nat.two_pow_pos _
  have hp : (2 : ℕ) ^ (k - sigma) = 2 * 2 ^ (k - sigma - 1) := by
    rw [← pow_succ']
    congr 1
    omega
  have main : ∀ b < 2 ^ (k - sigma - 1), ∃ z1 z2,
      OnesRun (shiftF (runNet (mirrorComps (2 ^ sigma) (2 ^ (k - sigma - 1))) st)
        (2 * 2 ^ sigma * b)) (2 ^ sigma) z1 (2 ^ sigma - z2) ∧
      ZerosRun (fun r => shiftF (runNet (mirrorComps (2 ^ sigma) (2 ^ (k - sigma - 1))) st)
        (2 * 2 ^ sigma * b) (2 ^ sigma + r)) (2 ^ sigma) (2 ^ sigma - z1) z2 ∧
      Sep01 (shiftF (runNet (mirrorComps (2 ^ sigma) (2 ^ (k - sigma - 1))) st)
        (2 * 2 ^ sigma * b))
        (fun r => shiftF (runNet (mirrorComps (2 ^ sigma) (2 ^ (k - sigma - 1))) st)
          (2 * 2 ^ sigma * b) (2 ^ sigma + r)) (2 ^ sigma) (2 ^ sigma) := by
    intro b hb
    obtain ⟨z1, hz1le, hz1⟩ := hout (2 * b) (by omega)
    obtain ⟨z2, hz2le, hz2⟩ := hout (2 * b + 1) (by omega)
    refine ⟨z1, z2, mirror_core (shiftF st (2 * 2 ^ sigma * b))
      (shiftF (runNet (mirrorComps (2 ^ sigma) (2 ^ (k - sigma - 1))) st) (2 * 2 ^ sigma * b))
      (2 ^ sigma) z1 z2 hG ?_ ?_ ?_ ?_⟩
    · intro r hr
      show st (2 * 2 ^ sigma * b + r) = _
      have h0 := hz1 r hr
      rw [show 2 * 2 ^ sigma * b + r = 2 * b * 2 ^ sigma + r by ring]
      exact h0
    · intro r hr
      show st (2 * 2 ^ sigma * b + (2 ^ sigma + r)) = _
      have h0 := hz2 r hr
      rw [show 2 * 2 ^ sigma * b + (2 ^ sigma + r) = (2 * b + 1) * 2 ^ sigma + r by ring]
      exact h0
    · intro h hh
      exact runNet_mirror_low (2 ^ sigma) (2 ^ (k - sigma - 1)) b h hG hb hh st
    · intro h hh
      exact runNet_mirror_high (2 ^ sigma) (2 ^ (k - sigma - 1)) b h hG hb hh st
  constructor
  · intro b hb c hc
    obtain ⟨z1, z2, h1, h2, _⟩ := main b hb
    have hc' : c = 0 ∨ c = 1 := by
      norm_num at hc
      omega
    have hoff0 : b * 2 ^ (sigma + 1) + 0 * 2 ^ (sigma - 0) = 2 * 2 ^ sigma * b := by
      simp only [Nat.sub_zero, pow_succ']
      ring
    have hoff1 : b * 2 ^ (sigma + 1) + 1 * 2 ^ (sigma - 0) = 2 * 2 ^ sigma * b + 2 ^ sigma := by
      simp only [Nat.sub_zero, pow_succ']
      ring
    rcases hc' with rfl | rfl
    · rw [hoff0]
      simp only [Nat.sub_zero]
      exact Or.inl ⟨z1, 2 ^ sigma - z2, h1⟩
    · rw [hoff1, ← shiftF_shift]
      simp only [Nat.sub_zero]
      exact Or.inr ⟨2 ^ sigma - z1, z2, h2⟩
  · intro b hb c hc
    obtain ⟨z1, z2, _, _, hsep⟩ := main b hb
    have hc0 : c = 0 := by
      norm_num at hc
      omega
    subst hc0
    have hoff0 : b * 2 ^ (sigma + 1) + 0 * 2 ^ (sigma - 0) = 2 * 2 ^ sigma * b := by
      simp only [Nat.sub_zero, pow_succ']
      ring
    have hoff1 : b * 2 ^ (sigma + 1) + (0 + 1) * 2 ^ (sigma - 0)
        = 2 * 2 ^ sigma * b + 2 ^ sigma := by
      simp only [Nat.sub_zero, pow_succ']
      ring
    rw [hoff0, hoff1, ← shiftF_shift]
    simp only [Nat.sub_zero]
    exact hsep

/-- A 0-1 sequence that never steps down is a sorted step block. -/
theorem mono01_isStep (v : ℕ → ℕ) :
    ∀ L : ℕ, (∀ r < L, v r ≤ 1) → (∀ r, r + 1 < L → (v r = 0 ∨ v (r + 1) = 1)) →
      ∃ z ≤ L, IsStep v L z := by
  intro L
  induction L with
  | zero => intro _ _; exact ⟨0, le_rfl, fun r hr => absurd hr (Nat.not_lt_zero r)⟩
  | succ L ih =>
    intro hb hmono
    obtain ⟨z, hzle, hz⟩ := ih (fun r hr => hb r (by omega)) (fun r hr => hmono r (by omega))
    by_cases hzL : z < L
    · refine ⟨z, by omega, ?_⟩
      intro r hr
      by_cases hrL : r < L
      · exact hz r hrL
      · have hrL' : r = L := by omega
        have hprev : v (L - 1) = 1 := by
          have h2 := hz (L - 1) (by omega)
          rw [h2, if_neg (by omega)]
        rcases hmono (L - 1) (by omega) with h0 | h1
        · rw [hprev] at h0
          omega
        · rw [show L - 1 + 1 = L by omega] at h1
          rw [hrL', h1, if_neg (by omega)]
    · have hzL' : z = L := by omega
      by_cases hvL : v L = 0
      · refine ⟨L + 1, le_rfl, ?_⟩
        intro r hr
        by_cases hrL : r < L
        · rw [hz r hrL, if_pos (show r < z by omega), if_pos (show r < L + 1 by omega)]
        · have hrL' : r = L := by omega
          rw [hrL', hvL, if_pos (by omega)]
      · refine ⟨L, by omega, ?_⟩
        intro r hr
        by_cases hrL : r < L
        · rw [hz r hrL, hzL']
        · have hrL' : r = L := by omega
          have hbL := hb L (by omega)
          rw [hrL', if_neg (by omega)]
          omega

/-- After the last step of stage sigma the singleton chunks chain up into a
sorted block of size 2 ^ (sigma + 1). -/
theorem stage_complete (k sigma : ℕ) (hs : sigma < k) (st : ℕ → ℕ)
    (h01 : ∀ j, st j ≤ 1) (hinv : StageInv st k sigma sigma) :
    OuterInv st k (sigma + 1) := by
  intro b hb
  have hb' : b < 2 ^ (k - sigma - 1) := by
    have he : k - (sigma + 1) = k - sigma - 1 := by omega
    rw [he] at hb
    exact hb
  refine mono01_isStep (shiftF st (b * 2 ^ (sigma + 1))) (2 ^ (sigma + 1))
    (fun r _ => h01 _) ?_
  intro r hr
  have hsep := hinv.2 b hb' r hr
  have hss : sigma - sigma = 0 := by omega
  rcases hsep with hz | ho
  · left
    have hv := hz 0 (by positivity)
    have hpos : b * 2 ^ (sigma + 1) + r * 2 ^ (sigma - sigma) + 0
        = b * 2 ^ (sigma + 1) + r := by
      simp [hss]
    show st (b * 2 ^ (sigma + 1) + r) = 0
    rw [← hpos]
    exact hv
  · right
    have hv := ho 0 (by positivity)
    have hpos : b * 2 ^ (sigma + 1) + (r + 1) * 2 ^ (sigma - sigma) + 0
        = b * 2 ^ (sigma + 1) + (r + 1) := by
      simp [hss]
    show st (b * 2 ^ (sigma + 1) + (r + 1)) = 1
    rw [← hpos]
    exact hv

theorem half_transition (k sigma t : ℕ) (hs : sigma < k) (ht : t < sigma) (st : ℕ → ℕ)
    (hinv : StageInv st k sigma t) :
    StageInv (runNet (halfComps (2 ^ (sigma - t - 1)) (2 ^ (k - sigma + t))) st)
      k sigma (t + 1) := by
  have hG : (0 : ℕ) < 2 ^ (sigma - t - 1) := Nat.two_pow_pos _
  have hC : (2 : ℕ) ^ (sigma - t) = 2 * 2 ^ (sigma - t - 1) := by
    rw [← pow_succ']
    congr 1
    omega
  have hB : (2 : ℕ) ^ (k - sigma - 1) * 2 ^ (t + 1) = 2 ^ (k - sigma + t) := by
    rw [← pow_add]
    congr 1
    omega
  have hSC : (2 : ℕ) ^ (sigma - t) * 2 ^ (t + 1) = 2 ^ (sigma + 1) := by
    rw [← pow_add]
    congr 1
    omega
  have hT2 : (2 : ℕ) ^ (t + 2) = 2 * 2 ^ (t + 1) := by
    rw [← pow_succ']
  have hexp : sigma - (t + 1) = sigma - t - 1 := by omega
  have heq : ∀ b c : ℕ, 2 * 2 ^ (sigma - t - 1) * (b * 2 ^ (t + 1) + c)
      = b * 2 ^ (sigma + 1) + c * 2 ^ (sigma - t) := by
    intro b c
    rw [← hC, ← hSC]
    ring
  have hβ : ∀ b c : ℕ, b < 2 ^ (k - sigma - 1) → c < 2 ^ (t + 1) →
      b * 2 ^ (t + 1) + c < 2 ^ (k - sigma + t) := by
    intro b c hb hc
    calc b * 2 ^ (t + 1) + c < b * 2 ^ (t + 1) + 2 ^ (t + 1) := by omega
      _ = (b + 1) * 2 ^ (t + 1) := by ring
      _ ≤ 2 ^ (k - sigma - 1) * 2 ^ (t + 1) := Nat.mul_le_mul_right _ hb
      _ = 2 ^ (k - sigma + t) := hB
  set st' := runNet (halfComps (2 ^ (sigma - t - 1)) (2 ^ (k - sigma + t))) st with hst'
  have core : ∀ b c, b < 2 ^ (k - sigma - 1) → c < 2 ^ (t + 1) →
      Bitonic01 (shiftF st' (b * 2 ^ (sigma + 1) + c * 2 ^ (sigma - t))) (2 ^ (sigma - t - 1)) ∧
      Bitonic01 (shiftF st' (b * 2 ^ (sigma + 1) + c * 2 ^ (sigma - t) + 2 ^ (sigma - t - 1)))
        (2 ^ (sigma - t - 1)) ∧
      Sep01 (shiftF st' (b * 2 ^ (sigma + 1) + c * 2 ^ (sigma - t)))
        (shiftF st' (b * 2 ^ (sigma + 1) + c * 2 ^ (sigma - t) + 2 ^ (sigma - t - 1)))
        (2 ^ (sigma - t - 1)) (2 ^ (sigma - t - 1)) := by
    intro b c hb hc
    have hbit : Bitonic01 (shiftF st (b * 2 ^ (sigma + 1) + c * 2 ^ (sigma - t)))
        (2 * 2 ^ (sigma - t - 1)) := by
      rw [← hC]
      exact hinv.1 b hb c hc
    have hcore := half_core
      (shiftF st (b * 2 ^ (sigma + 1) + c * 2 ^ (sigma - t)))
      (shiftF st' (b * 2 ^ (sigma + 1) + c * 2 ^ (sigma - t)))
      (2 ^ (sigma - t - 1)) hG hbit ?_ ?_
    · refine ⟨hcore.1, ?_, ?_⟩
      · rw [← shiftF_shift st' (b * 2 ^ (sigma + 1) + c * 2 ^ (sigma - t)) (2 ^ (sigma - t - 1))]
        exact hcore.2.1
      · rw [← shiftF_shift st' (b * 2 ^ (sigma + 1) + c * 2 ^ (sigma - t)) (2 ^ (sigma - t - 1))]
        exact hcore.2.2
    · intro h hh
      have hv := runNet_half_low (2 ^ (sigma - t - 1)) (2 ^ (k - sigma + t))
        (b * 2 ^ (t + 1) + c) h hG (hβ b c hb hc) hh st
      rw [heq b c] at hv
      show st' (b * 2 ^ (sigma + 1) + c * 2 ^ (sigma - t) + h)
        = min (st (b * 2 ^ (sigma + 1) + c * 2 ^ (sigma - t) + h))
              (st (b * 2 ^ (sigma + 1) + c * 2 ^ (sigma - t) + (2 ^ (sigma - t - 1) + h)))
      rw [show b * 2 ^ (sigma + 1) + c * 2 ^ (sigma - t) + (2 ^ (sigma - t - 1) + h)
          = b * 2 ^ (sigma + 1) + c * 2 ^ (sigma - t) + h + 2 ^ (sigma - t - 1) by omega]
      exact hv
    · intro h hh
      have hv := runNet_half_high (2 ^ (sigma - t - 1)) (2 ^ (k - sigma + t))
        (b * 2 ^ (t + 1) + c) h hG (hβ b c hb hc) hh st
      rw [heq b c] at hv
      show st' (b * 2 ^ (sigma + 1) + c * 2 ^ (sigma - t) + (2 ^ (sigma - t - 1) + h))
        = max (st (b * 2 ^ (sigma + 1) + c * 2 ^ (sigma - t) + h))
              (st (b * 2 ^ (sigma + 1) + c * 2 ^ (sigma - t) + (2 ^ (sigma - t - 1) + h)))
      rw [show b * 2 ^ (sigma + 1) + c * 2 ^ (sigma - t) + (2 ^ (sigma - t - 1) + h)
          = b * 2 ^ (sigma + 1) + c * 2 ^ (sigma - t) + h + 2 ^ (sigma - t - 1) by omega]
      exact hv
  constructor
  · intro b hb c' hc'
    simp only [hexp]
    rcases Nat.even_or_odd c' with ⟨q, hq⟩ | ⟨q, hq⟩
    · subst hq
      have hqlt : q < 2 ^ (t + 1) := by
        rw [hT2] at hc'
        omega
      rw [show b * 2 ^ (sigma + 1) + (q + q) * 2 ^ (sigma - t - 1)
          = b * 2 ^ (sigma + 1) + q * 2 ^ (sigma - t) by rw [hC]; ring]
      exact (core b q hb hqlt).1
    · subst hq
      have hqlt : q < 2 ^ (t + 1) := by
        rw [hT2] at hc'
        omega
      rw [show b * 2 ^ (sigma + 1) + (2 * q + 1) * 2 ^ (sigma - t - 1)
          = b * 2 ^ (sigma + 1) + q * 2 ^ (sigma - t) + 2 ^ (sigma - t - 1) by rw [hC]; ring]
      exact (core b q hb hqlt).2.1
  · intro b hb c' hc'
    simp only [hexp]
    rcases Nat.even_or_odd c' with ⟨q, hq⟩ | ⟨q, hq⟩
    · -- even chunk against its odd sibling inside the same old chunk
      subst hq
      have hqlt : q < 2 ^ (t + 1) := by
        rw [hT2] at hc'
        omega
      rw [show b * 2 ^ (sigma + 1) + (q + q) * 2 ^ (sigma - t - 1)
          = b * 2 ^ (sigma + 1) + q * 2 ^ (sigma - t) by rw [hC]; ring]
      rw [show b * 2 ^ (sigma + 1) + (q + q + 1) * 2 ^ (sigma - t - 1)
          = b * 2 ^ (sigma + 1) + q * 2 ^ (sigma - t) + 2 ^ (sigma - t - 1) by rw [hC]; ring]
      exact (core b q hb hqlt).2.2
    · -- odd chunk against the even start of the next old chunk
      subst hq
      have hqlt : q + 1 < 2 ^ (t + 1) := by
        rw [hT2] at hc'
        omega
      have hsep := hinv.2 b hb q hqlt
      rw [show b * 2 ^ (sigma + 1) + (2 * q + 1) * 2 ^ (sigma - t - 1)
          = b * 2 ^ (sigma + 1) + q * 2 ^ (sigma - t) + 2 ^ (sigma - t - 1) by rw [hC]; ring]
      rw [show b * 2 ^ (sigma + 1) + (2 * q + 1 + 1) * 2 ^ (sigma - t - 1)
          = b * 2 ^ (sigma + 1) + (q + 1) * 2 ^ (sigma - t) by rw [hC]; ring]
      rcases hsep with hz | ho
      · left
        have hpres : ∀ r, 2 * 2 ^ (sigma - t - 1) * (b * 2 ^ (t + 1) + q) ≤ r →
            r < 2 * 2 ^ (sigma - t - 1) * (b * 2 ^ (t + 1) + q) + 2 * 2 ^ (sigma - t - 1) →
            st' r = 0 := by
          refine runNet_region_pred _ _ _ (fun x => x = 0)
            (halfComps_region (2 ^ (sigma - t - 1)) (2 ^ (k - sigma + t))
              (b * 2 ^ (t + 1) + q) hG) st ?_
          intro r h1 h2
          rw [heq b q] at h1 h2
          rw [show r = b * 2 ^ (sigma + 1) + q * 2 ^ (sigma - t) + (r - (b * 2 ^ (sigma + 1) + q * 2 ^ (sigma - t))) by omega]
          refine hz _ ?_
          omega
        rw [heq b q] at hpres
        intro r hr
        show st' (b * 2 ^ (sigma + 1) + q * 2 ^ (sigma - t) + 2 ^ (sigma - t - 1) + r) = 0
        refine hpres _ (by omega) (by omega)
      · right
        have hpres : ∀ r, 2 * 2 ^ (sigma - t - 1) * (b * 2 ^ (t + 1) + (q + 1)) ≤ r →
            r < 2 * 2 ^ (sigma - t - 1) * (b * 2 ^ (t + 1) + (q + 1)) + 2 * 2 ^ (sigma - t - 1) →
            st' r = 1 := by
          refine runNet_region_pred _ _ _ (fun x => x = 1)
            (halfComps_region (2 ^ (sigma - t - 1)) (2 ^ (k - sigma + t))
              (b * 2 ^ (t + 1) + (q + 1)) hG) st ?_
          intro r h1 h2
          rw [heq b (q + 1)] at h1 h2
          rw [show r = b * 2 ^ (sigma + 1) + (q + 1) * 2 ^ (sigma - t) + (r - (b * 2 ^ (sigma + 1) + (q + 1) * 2 ^ (sigma - t))) by omega]
          refine ho _ ?_
          omega
        rw [heq b (q + 1)] at hpres
        intro r hr
        show st' (b * 2 ^ (sigma + 1) + (q + 1) * 2 ^ (sigma - t) + r) = 1
        refine hpres _ (by omega) (by omega)

theorem steps_run (k sigma : ℕ) (hs : sigma < k) :
    ∀ u t st, t + u = sigma → StageInv st k sigma t →
      StageInv (runNet ((List.range' (t + 1) u).flatMap (stageStepNetPow k sigma)) st)
        k sigma sigma := by
  intro u
  induction u with
  | zero =>
    intro t st htu hinv
    have ht : t = sigma := by omega
    subst ht
    exact hinv
  | succ u ih =>
    intro t st htu hinv
    rw [List.range'_succ, List.flatMap_cons, runNet_append]
    have hstep : stageStepNetPow k sigma (t + 1)
        = halfComps (2 ^ (sigma - t - 1)) (2 ^ (k - sigma + t)) := by
      unfold stageStepNetPow
      rw [if_neg (Nat.succ_ne_zero t)]
      rw [show sigma - (t + 1) = sigma - t - 1 from by omega]
      rw [show k - (sigma - t - 1) - 1 = k - sigma + t from by omega]
    rw [hstep]
    exact ih (t + 1) _ (by omega) (half_transition k sigma t hs (by omega) st hinv)

theorem outer_base (k : ℕ) (st : ℕ → ℕ) (h01 : ∀ j, st j ≤ 1) : OuterInv st k 0 := by
  intro b hb
  refine ⟨1 - st (b * 2 ^ 0), by omega, ?_⟩
  intro r hr
  have hone : (2 : ℕ) ^ 0 = 1 := pow_zero 2
  have hr0 : r = 0 := by omega
  subst hr0
  show st (b * 2 ^ 0 + 0) = _
  have hv : st (b * 2 ^ 0) = 0 ∨ st (b * 2 ^ 0) = 1 := by
    have := h01 (b * 2 ^ 0)
    omega
  rw [show b * 2 ^ 0 + 0 = b * 2 ^ 0 from rfl]
  rcases hv with h | h <;> rw [h] <;> norm_num

theorem stage_run (k sigma : ℕ) (hs : sigma < k) (st : ℕ → ℕ) (h01 : ∀ j, st j ≤ 1)
    (hout : OuterInv st k sigma) :
    OuterInv (runNet (stageNetPow k sigma) st) k (sigma + 1) := by
  unfold stageNetPow
  rw [List.range_succ_eq_map, List.flatMap_cons, runNet_append]
  have h0 : stageStepNetPow k sigma 0 = mirrorComps (2 ^ sigma) (2 ^ (k - sigma - 1)) := by
    unfold stageStepNetPow
    rw [if_pos rfl]
  rw [h0]
  have hmap : List.map Nat.succ (List.range sigma) = List.range' (0 + 1) sigma := by
    rw [List.range'_eq_map_range]
    apply List.map_congr_left
    intro x _
    omega
  rw [hmap]
  have hinv0 := mirror_transition k sigma hs st hout
  have hfinal := steps_run k sigma hs sigma 0
    (runNet (mirrorComps (2 ^ sigma) (2 ^ (k - sigma - 1))) st) (by omega) hinv0
  refine stage_complete k sigma hs _ ?_ hfinal
  exact runNet_pred _ (fun x => x ≤ 1) _ (runNet_pred _ (fun x => x ≤ 1) st h01)

theorem stages_run (k : ℕ) :
    ∀ u sigma st, sigma + u = k → (∀ j, st j ≤ 1) → OuterInv st k sigma →
      OuterInv (runNet ((List.range' sigma u).flatMap (stageNetPow k)) st) k k := by
  intro u
  induction u with
  | zero =>
    intro sigma st hsu h01 hout
    have hs : sigma = k := by omega
    subst hs
    exact hout
  | succ u ih =>
    intro sigma st hsu h01 hout
    rw [List.range'_succ, List.flatMap_cons, runNet_append]
    exact ih (sigma + 1) _ (by omega)
      (runNet_pred _ (fun x => x ≤ 1) st h01)
      (stage_run k sigma (by omega) st h01 hout)

theorem network01_sorts (K : ℕ) (v : ℕ → ℕ) (h01 : ∀ j, v j ≤ 1) :
    ∀ i j, i ≤ j → j < 2 ^ K → runNet (fullNetPow K) v i ≤ runNet (fullNetPow K) v j := by
  have hout : OuterInv (runNet (fullNetPow K) v) K K := by
    have hrun := stages_run K K 0 v (by omega) h01 (outer_base K v h01)
    unfold fullNetPow
    rw [List.range_eq_range']
    exact hrun
  obtain ⟨z, hzle, hz⟩ := hout 0 (by
    have : (2 : ℕ) ^ (K - K) = 1 := by
      rw [show K - K = 0 from by omega]
      exact pow_zero 2
    omega)
  intro i j hij hj
  have hi := hz i (by omega)
  have hjv := hz j hj
  show runNet (fullNetPow K) v i ≤ runNet (fullNetPow K) v j
  rw [show runNet (fullNetPow K) v i = shiftF (runNet (fullNetPow K) v) (0 * 2 ^ K) i from by
    unfold shiftF
    rw [show 0 * 2 ^ K + i = i from by omega]]
  rw [show runNet (fullNetPow K) v j = shiftF (runNet (fullNetPow K) v) (0 * 2 ^ K) j from by
    unfold shiftF
    rw [show 0 * 2 ^ K + j = j from by omega]]
  rw [hi, hjv]
  split_ifs <;> omega

theorem network_sorts (K : ℕ) (v : ℕ → ℕ) :
    ∀ i j, i ≤ j → j < 2 ^ K → runNet (fullNetPow K) v i ≤ runNet (fullNetPow K) v j := by
  intro i j hij hj
  by_contra hgt
  push_neg at hgt
  have hmono : Monotone (fun x => if runNet (fullNetPow K) v j < x then 1 else 0) := by
    intro a b hab
    simp only
    split_ifs <;> omega
  have hcomm := runNet_monotone (fullNetPow K)
    (fun x => if runNet (fullNetPow K) v j < x then 1 else 0) hmono v
  have h01f : ∀ x, (fun y => if runNet (fullNetPow K) v j < v y then 1 else 0) x ≤ 1 := by
    intro x
    simp only
    split_ifs <;> omega
  have hsorted := network01_sorts K
    (fun y => if runNet (fullNetPow K) v j < v y then 1 else 0) h01f i j hij hj
  rw [show (fun y => if runNet (fullNetPow K) v j < v y then 1 else 0)
      = (fun y => (fun x => if runNet (fullNetPow K) v j < x then 1 else 0) (v y)) from rfl] at hsorted
  rw [hcomm] at hsorted
  simp only at hsorted
  rw [if_pos hgt, if_neg (lt_irrefl _)] at hsorted
  omega

/-! Claim C1: the generated bitonic network sorts, and padding stays behind
every real entry. -/

/-- Claim C1: for every particle_count n (1 <= n, within the u32 domain of
next_power_of_two) and P = next_pow2(n), the compare-and-swap schedule built
by the host (log2(P) stages, stage s with s+1 steps, step (s,t) using
group_width 2^(s-t), group_height 2*group_width-1) sorts every initial
(cellKey, particleIndex) array of P entries whose keys are u32 values and
whose tail beyond n holds sentinel-keyed padding entries: afterwards the
cellKeys of the first n slots are non-decreasing, and every padding entry
(particleIndex at or beyond n) sits after every real entry. -/
theorem bitonic_network_sorts (n : ℕ) (h1 : 1 ≤ n) (h2 : n ≤ 2 ^ 31) (s0 : ℕ → Entry)
    (hkey : ∀ j, j < nextPow2 n → (s0 j).1 ≤ SENTINEL)
    (hpad : ∀ j, n ≤ j → j < nextPow2 n → (s0 j).1 = SENTINEL ∧ n ≤ (s0 j).2)
    (hreal : ∀ j, j < n → (s0 j).2 < n) :
    (∀ i j, i ≤ j → j < n →
      (runNetE (fullNetwork n) s0 i).1 ≤ (runNetE (fullNetwork n) s0 j).1) ∧
    (∀ p, p < nextPow2 n → n ≤ (runNetE (fullNetwork n) s0 p).2 →
      ∀ q, q < nextPow2 n → (runNetE (fullNetwork n) s0 q).2 < n → q < p) := by
  have hnP : n ≤ 2 ^ ceilLog2 n := le_nextPow2 n
  have hbounds : ∀ c ∈ fullNetwork n, c.1 < c.2 ∧ c.2 < 2 ^ ceilLog2 n := by
    rw [fullNetwork_eq_pow]
    exact fullNetPow_bounds (ceilLog2 n)
  have hfix := runNetE_fixes_tail (2 ^ ceilLog2 n) n SENTINEL (fullNetwork n) hbounds s0
    (fun j hj => hkey j hj)
    (fun j hj1 hj2 => (hpad j hj1 hj2).1)
    hreal
  constructor
  · intro i j hij hj
    have hkeyproj := runNetE_key (fullNetwork n) s0
    have hi := congrFun hkeyproj i
    have hjv := congrFun hkeyproj j
    simp only at hi hjv
    rw [hi, hjv, fullNetwork_eq_pow]
    exact network_sorts (ceilLog2 n) _ i j hij (by omega)
  · intro p hp hpadp q hq hrealq
    by_cases hpn : p < n
    · exfalso
      have := hfix.2 p hpn
      omega
    · by_cases hqn : q < n
      · omega
      · exfalso
        have hfq := hfix.1 q (by omega)
        rw [hfq] at hrealq
        have := (hpad q (by omega) hq).2
        omega

theorem bitonic_network_sorts_witness :
    (1 ≤ 3 ∧ (3 : ℕ) ≤ 2 ^ 31) ∧
    ((∀ i j, i ≤ j → j < 3 →
      (runNetE (fullNetwork 3)
        (fun j => if j = 0 then ((7, 1) : Entry) else if j = 1 then (5, 0)
          else if j = 2 then (3, 2) else (SENTINEL, 3)) i).1 ≤
      (runNetE (fullNetwork 3)
        (fun j => if j = 0 then ((7, 1) : Entry) else if j = 1 then (5, 0)
          else if j = 2 then (3, 2) else (SENTINEL, 3)) j).1) ∧
    (∀ p, p < nextPow2 3 → 3 ≤ (runNetE (fullNetwork 3)
        (fun j => if j = 0 then ((7, 1) : Entry) else if j = 1 then (5, 0)
          else if j = 2 then (3, 2) else (SENTINEL, 3)) p).2 →
      ∀ q, q < nextPow2 3 → (runNetE (fullNetwork 3)
        (fun j => if j = 0 then ((7, 1) : Entry) else if j = 1 then (5, 0)
          else if j = 2 then (3, 2) else (SENTINEL, 3)) q).2 < 3 → q < p)) :=
  ⟨⟨by decide, by norm_num⟩,
    bitonic_network_sorts 3 (by decide) (by norm_num)
      (fun j => if j = 0 then ((7, 1) : Entry) else if j = 1 then (5, 0)
        else if j = 2 then (3, 2) else (SENTINEL, 3))
      (by decide)
      (by
        intro j h1 h2
        have he : nextPow2 3 = 4 := by decide
        have hj : j = 3 := by omega
        subst hj
        exact ⟨by decide, by decide⟩)
      (by decide)⟩

end ParticleSim
